import Mathlib

/-!
Verification of the synchronized multi-thread measurement engine of avx-turbo
(interval-overlap analysis, hot barrier, marginal-cost measurement loop, TSC
calibration, and configuration-error handling).

Conventions of the embedding:
* `uint64_t` values are natural numbers; subtraction and running sums that the
  C++ code performs in 64-bit arithmetic are done modulo `W = 2 ^ 64` (`wsub`,
  and the explicit `% W` in the accumulating folds).  Counters that are bounded
  by the length of an input list (the sweep-line active counts, the barrier
  arrival count) use plain `Nat` subtraction where the C++ uses `size_t`;
  the proofs only ever evaluate them in the no-underflow regime.
* `std::sort` with the comparator `l.stamp < r.stamp` is embedded as
  `List.insertionSort` with the total preorder `stampLE` (comparing stamps
  only); this is one of the orderings `std::sort` is allowed to produce.
* `double` values are embedded as exact rationals extended with NaN and signed
  infinities (type `D`).  IEEE-754 rounding and negative zero are not modelled;
  the claims proved here only involve exactly-representable values and NaN
  propagation.
* Hardware inputs (the `rdtsc`/`clock_gettime` sampling measurements, the
  CPUID registers) are parameters of the embedded functions.
-/

/-- Modulus of 64-bit unsigned arithmetic. -/
def W : Nat := 2 ^ 64

/-- Wrapping 64-bit subtraction: the value of `a - b` for `uint64_t` operands,
assuming both operands are below `W`. -/
def wsub (a b : Nat) : Nat := (W + a - b) % W

/-- Comparator used to sort sweep-line events: `std::sort` is invoked with
`[](event l, event r){ return l.stamp < r.stamp; }`, i.e. events are ordered by
stamp only.  Events are embedded as pairs `(stamp, payload)`. -/
def stampLE {α : Type} (a b : Nat × α) : Prop := a.1 ≤ b.1

instance stampLE.instDecidableRel {α : Type} : DecidableRel (@stampLE α) :=
fun a b => Nat.decLe a.1 b.1

instance stampLE.instIsTotal {α : Type} : IsTotal (Nat × α) stampLE :=
⟨fun a b => Nat.le_total a.1 b.1⟩

instance stampLE.instIsTrans {α : Type} : IsTrans (Nat × α) stampLE :=
⟨fun _ _ _ h h2 => Nat.le_trans h h2⟩

/-- Event list built by the loop of `concurrency` (util.hpp:74-78): for every
interval it pushes `(first, START)` then `(second, STOP)`; `START` is embedded
as `true`. -/
def concEvents : List (Nat × Nat) → List (Nat × Bool)
  | [] => []
  | p :: l => (p.1, true) :: (p.2, false) :: concEvents l

/-- Running sum of interval lengths in 64-bit arithmetic: the accumulation
`sum_top += i->second - i->first` of `concurrency` (util.hpp:75), also the
accumulation `sum_bottom += i->second - i->first` over the inner intervals in
`nested_concurrency` (util.hpp:152). -/
def sum_lens (l : List (Nat × Nat)) : Nat :=
  l.foldl (fun s p => (s + wsub p.2 p.1) % W) 0

/-- Sweep loop of `concurrency` (util.hpp:82-94): walk the sorted events
keeping the active count; while the count is nonzero accumulate the elapsed
period into `sum_bottom`.  Arguments: events, `count`, stamp of the previous
event, `sum_bottom`. -/
def concSweep : List (Nat × Bool) → Nat → Nat → Nat → Nat
  | [], _, _, sum_bottom => sum_bottom
  | e :: es, count, last, sum_bottom =>
    concSweep es (if e.2 then count + 1 else count - 1) e.1
      (if count ≠ 0 then (sum_bottom + wsub e.1 last) % W else sum_bottom)

/-- Embedding of `concurrency` (util.hpp:57-99) at the `uint64_t` pair
instantiation used by the program: returns `(sum_top, sum_bottom)`, the sum of
the interval lengths and the swept duration during which at least one interval
is active; `(0, 0)` for the empty range. -/
def concurrency (l : List (Nat × Nat)) : Nat × Nat :=
  match l with
  | [] => (0, 0)
  | _ :: _ =>
    (sum_lens l, concSweep (List.insertionSort stampLE (concEvents l)) 0 0 0)

/-- Event payloads of `nested_concurrency` (util.hpp:140). -/
inductive NTyp : Type where
  | starto : NTyp
  | stopo : NTyp
  | starti : NTyp
  | stopi : NTyp
deriving DecidableEq

/-- Events pushed for the outer intervals by `nested_concurrency`
(util.hpp:146-149). -/
def outerEvents : List (Nat × Nat) → List (Nat × NTyp)
  | [] => []
  | p :: l => (p.1, NTyp.starto) :: (p.2, NTyp.stopo) :: outerEvents l

/-- Events pushed for the inner intervals by `nested_concurrency`
(util.hpp:151-155). -/
def innerEvents : List (Nat × Nat) → List (Nat × NTyp)
  | [] => []
  | p :: l => (p.1, NTyp.starti) :: (p.2, NTyp.stopi) :: innerEvents l

/-- Sweep loop of `nested_concurrency` (util.hpp:165-186): walk the sorted
merged events keeping separate outer and inner active counts, accumulating
`sum_top += ocount * icount * (event.stamp - last_stamp)` before each count
update.  Arguments: events, `ocount`, `icount`, `last_stamp`, `sum_top`. -/
def nestSweep : List (Nat × NTyp) → Nat → Nat → Nat → Nat → Nat
  | [], _, _, _, sum_top => sum_top
  | e :: es, ocount, icount, last, sum_top =>
    let s2 := (sum_top + ocount * icount * wsub e.1 last) % W
    match e.2 with
    | NTyp.starto => nestSweep es (ocount + 1) icount e.1 s2
    | NTyp.stopo => nestSweep es (ocount - 1) icount e.1 s2
    | NTyp.starti => nestSweep es ocount (icount + 1) e.1 s2
    | NTyp.stopi => nestSweep es ocount (icount - 1) e.1 s2

/-- Embedding of `nested_concurrency` (util.hpp:130-192): `(0, 0)` when the
inner range is empty, otherwise the weighted sum swept over the sorted merged
events paired with the sum of the inner interval lengths.  The sweep starts
with `last_stamp = events.front().stamp` (util.hpp:166). -/
def nested_concurrency (o i : List (Nat × Nat)) : Nat × Nat :=
  match i with
  | [] => (0, 0)
  | _ :: _ =>
    match List.insertionSort stampLE (outerEvents o ++ innerEvents i) with
    | [] => (0, sum_lens i)
    | e :: es => (nestSweep (e :: es) 0 0 e.1 0, sum_lens i)

/-- Model of IEEE-754 `double` values: an exact rational, a signed infinity
(`true` = positive), or NaN.  Rounding and negative zero are not modelled. -/
inductive D : Type where
  | fin : ℚ → D
  | inf : Bool → D
  | nan : D
deriving DecidableEq

/-- Addition on the double model, with NaN and infinity propagation. -/
def D.add : D → D → D
  | D.nan, _ => D.nan
  | _, D.nan => D.nan
  | D.fin a, D.fin b => D.fin (a + b)
  | D.fin _, D.inf s => D.inf s
  | D.inf s, D.fin _ => D.inf s
  | D.inf s, D.inf t => if s = t then D.inf s else D.nan

/-- Subtraction on the double model. -/
def D.sub : D → D → D
  | D.nan, _ => D.nan
  | _, D.nan => D.nan
  | D.fin a, D.fin b => D.fin (a - b)
  | D.fin _, D.inf s => D.inf (!s)
  | D.inf s, D.fin _ => D.inf s
  | D.inf s, D.inf t => if s = t then D.nan else D.inf s

/-- Multiplication on the double model. -/
def D.mul : D → D → D
  | D.nan, _ => D.nan
  | _, D.nan => D.nan
  | D.fin a, D.fin b => D.fin (a * b)
  | D.fin a, D.inf s => if a = 0 then D.nan else D.inf (decide (0 < a) == s)
  | D.inf s, D.fin a => if a = 0 then D.nan else D.inf (decide (0 < a) == s)
  | D.inf s, D.inf t => D.inf (s == t)

/-- Division on the double model: `0/0` is NaN, a nonzero finite value divided
by zero is a signed infinity. -/
def D.div : D → D → D
  | D.nan, _ => D.nan
  | _, D.nan => D.nan
  | D.fin a, D.fin b =>
    if b = 0 then (if a = 0 then D.nan else D.inf (decide (0 < a)))
    else D.fin (a / b)
  | D.fin _, D.inf _ => D.fin 0
  | D.inf s, D.fin b => if b = 0 then D.inf s else D.inf ((decide (0 ≤ b)) == s)
  | D.inf _, D.inf _ => D.nan

/-- Embedding of `remap` (util.hpp:198-200):
`outrange_start + (outrange_end - outrange_start) / (inrange_end - inrange_start) * (value - inrange_start)`. -/
def remap (value inrange_start inrange_end outrange_start outrange_end : D) : D :=
  D.add outrange_start
    (D.mul (D.div (D.sub outrange_end outrange_start)
                  (D.sub inrange_end inrange_start))
           (D.sub value inrange_start))

/-- Embedding of `conc_ratio` (util.hpp:211-221): `1.0` for a single range by
definition, otherwise `remap(first/second, 1, N, 0, 1)` where `(first, second)
= concurrency(...)` and `N` is the number of ranges. -/
def conc_ratio (l : List (Nat × Nat)) : D :=
  let N := l.length
  if N = 1 then D.fin 1
  else
    let conc := concurrency l
    let raw_ratio := D.div (D.fin (conc.1 : ℚ)) (D.fin (conc.2 : ℚ))
    remap raw_ratio (D.fin 1) (D.fin (N : ℚ)) (D.fin 0) (D.fin 1)

/-- Embedding of `nconc_ratio` (util.hpp:223-236): `0.0` when there are no
outer ranges, the raw ratio unremapped when there is exactly one, otherwise
`remap(first/second, 1, ocount, 0, 1)` with
`(first, second) = nested_concurrency(...)`. -/
def nconc_ratio (o i : List (Nat × Nat)) : D :=
  let ocount := o.length
  if ocount = 0 then D.fin 0
  else
    let conc := nested_concurrency o i
    let raw_ratio := D.div (D.fin (conc.1 : ℚ)) (D.fin (conc.2 : ℚ))
    if ocount = 1 then raw_ratio
    else remap raw_ratio (D.fin 1) (D.fin (ocount : ℚ)) (D.fin 0) (D.fin 1)

/-- State of `hot_barrier` (avx-turbo.cpp:346-370): the fixed `break_count`
and the `std::atomic<size_t>` arrival counter `current`. -/
structure hot_barrier : Type where
  break_count : Nat
  current : Nat
deriving DecidableEq

/-- Constructor `hot_barrier(count)`: `break_count(count), current{0}`
(avx-turbo.cpp:349). -/
def hot_barrier.new (count : Nat) : hot_barrier :=
  { break_count := count, current := 0 }

/-- Embedding of `hot_barrier::increment` (avx-turbo.cpp:352-354): `current++`
in 64-bit (`size_t`) arithmetic. -/
def hot_barrier.increment (b : hot_barrier) : hot_barrier :=
  { b with current := (b.current + 1) % W }

/-- Embedding of `hot_barrier::is_broken` (avx-turbo.cpp:357-359):
`current.load() == break_count`. -/
def hot_barrier.is_broken (b : hot_barrier) : Bool :=
  b.current == b.break_count

/-- Barrier state after `k` calls to `increment()` on a barrier freshly
constructed with participant count `N`.  `hot_barrier::wait` performs one
`increment()` and then busy-spins polling `is_broken()` (avx-turbo.cpp:362-369),
so a call to `wait()` can return only at a poll point whose global state is
`afterIncrements N k` for the number `k` of increments that have occurred. -/
def afterIncrements (N : Nat) : Nat → hot_barrier
  | 0 => hot_barrier.new N
  | k + 1 => (afterIncrements N k).increment

/-- One trial of the loop of `run_test` (avx-turbo.cpp:397-404): read the
clock, run the workload at `iters` iterations, read the clock, run it at
`iters * 2`, read the clock, and record `(t2 - t1) - (t1 - t0)` in 64-bit
arithmetic.  The workload is modelled by its cost function `cost`, giving the
clock ticks consumed by one invocation at a given iteration count; `t0` is the
clock value when the trial starts. -/
def trialSample (cost : Nat → Nat) (iters t0 : Nat) : Nat :=
  let t1 := (t0 + cost iters) % W
  let t2 := (t1 + cost (iters * 2)) % W
  wsub (wsub t2 t1) (wsub t1 t0)

/-- The `tries` samples recorded by the trial loop of `run_test`
(avx-turbo.cpp:397-404), threading the clock through consecutive trials. -/
def run_test_samples (cost : Nat → Nat) (iters : Nat) : Nat → Nat → List Nat
  | 0, _ => []
  | tries + 1, t0 =>
    trialSample cost iters t0 ::
      run_test_samples cost iters tries (((t0 + cost iters) % W + cost (iters * 2)) % W)

/-- Constant `SAMPLES` of tsc-support.cpp:69. -/
def SAMPLES : Nat := 101

/-- Embedding of `tsc_from_cal` (tsc-support.cpp:83-100): collect
`SAMPLES * 2` measurements, drop the first `SAMPLES` as warmup, sort the
second half, and return the integer average of the `SAMPLES/5` sorted samples
starting at index `2*SAMPLES/5`.  The hardware measurement `do_sample()` is
modelled by the oracle `sample`, giving the value measured by the `s`-th call. -/
def tsc_from_cal (sample : Nat → Nat) : Nat :=
  let samples := (List.range (SAMPLES * 2)).map sample
  let second_half := samples.drop SAMPLES
  let sorted := List.insertionSort (fun a b => a ≤ b) second_half
  let third_quintile := (sorted.drop (2 * SAMPLES / 5)).take (SAMPLES / 5)
  (third_quintile.foldl (fun s x => (s + x) % W) 0) / (SAMPLES / 5)

/-- Specification-side restatement of the trimmed mean (spec section 4.1):
discard the first `SAMPLES` samples as warmup, sort the remaining `SAMPLES`
samples, and average the middle one-fifth (the `SAMPLES/5` consecutive sorted
samples starting at index `2*SAMPLES/5`), with an exact (non-wrapping) sum. -/
def trimmedMeanSpec (sample : Nat → Nat) : Nat :=
  let retained := ((List.range (2 * SAMPLES)).map sample).drop SAMPLES
  let sorted := List.insertionSort (fun a b => a ≤ b) retained
  ((sorted.drop (2 * SAMPLES / 5)).take (SAMPLES / 5)).sum / (SAMPLES / 5)

/-- CPUID-derived inputs of `get_tsc_from_cpuid_inner` (tsc-support.cpp:23-53):
the highest supported leaf, the three leaf-0x15 registers (EAX = ratio
denominator, EBX = ratio numerator, ECX = crystal clock frequency), and the
family/model pair.  The registers are 32-bit, so products of two of them do
not overflow the `uint64_t` arithmetic of the source. -/
structure CpuidInfo : Type where
  highest_leaf : Nat
  eax : Nat
  ebx : Nat
  ecx : Nat
  family : Nat
  model : Nat

/-- Embedding of `get_tsc_from_cpuid_inner` (tsc-support.cpp:23-53): zero when
leaf 0x15 is unsupported; `ecx * ebx / eax` when the crystal frequency is
present in ECX; the hard-coded 24 MHz crystal times `ebx / eax` for the known
family-6 Skylake/Kabylake models when ECX is zero; zero otherwise. -/
def get_tsc_from_cpuid_inner (info : CpuidInfo) : Nat :=
  if info.highest_leaf < 0x15 then 0
  else if info.ecx ≠ 0 then info.ecx * info.ebx / info.eax
  else if info.family = 6 then
    if info.model = 0x4E ∨ info.model = 0x5E ∨ info.model = 0x8E ∨ info.model = 0x9E then
      24000000 * info.ebx / info.eax
    else 0
  else 0

/-- Embedding of `get_tsc_freq` (tsc-support.cpp:108-115): return the CPUID
value when calibration is not forced and that value is nonzero, otherwise run
the calibration loop. -/
def get_tsc_freq (force_calibrate : Bool) (info : CpuidInfo) (sample : Nat → Nat) : Nat :=
  if force_calibrate = false ∧ get_tsc_from_cpuid_inner info ≠ 0 then
    get_tsc_from_cpuid_inner info
  else tsc_from_cal sample

/-- Observable actions of the startup path of `main` that matter for
configuration-error handling. -/
inductive MainAct : Type where
  | exitFailure : MainAct
  | spawn : Nat → MainAct
  | joinAll : MainAct
deriving DecidableEq

/-- Action trace of the startup skeleton of `main` for one spec run
(avx-turbo.cpp:787-886): the iteration-count check `arg_iters.Get() % 100 != 0`
exits before anything else (avx-turbo.cpp:791-794); `make_from_spec` exits when
the spec needs more threads than there are CPUs (avx-turbo.cpp:547-550), still
before any thread is created; only then does the loop construct one
`test_thread` per entry of `spec.thread_funcs` (avx-turbo.cpp:870-874) and join
them all (avx-turbo.cpp:877-880). -/
def mainTrace (iters specCount ncpus : Nat) : List MainAct :=
  if iters % 100 ≠ 0 then [MainAct.exitFailure]
  else if ncpus < specCount then [MainAct.exitFailure]
  else (List.range specCount).map MainAct.spawn ++ [MainAct.joinAll]

/-- Test for `spawn` actions. -/
def MainAct.isSpawn : MainAct → Bool
  | MainAct.spawn _ => true
  | _ => false

/-- Concrete CPUID register values exercising the hard-coded-crystal branch of
`get_tsc_from_cpuid_inner` with a nonzero ratio numerator (EBX). -/
def infoCX : CpuidInfo :=
  { highest_leaf := 0x15, eax := 1, ebx := 2, ecx := 0, family := 6, model := 0x4E }

/-- Generic exact-arithmetic sweep used to reason about the two sweep loops:
walk timestamped events, updating an abstract state with `upd` and accumulating
`rate state * elapsed` for each inter-event period. -/
def gsweep {α σ : Type} (upd : α → σ → σ) (rate : σ → Nat) :
    List (Nat × α) → σ → Nat → Nat → Nat
  | [], _, _, acc => acc
  | e :: es, s, last, acc =>
    gsweep upd rate es (upd e.2 s) e.1 (acc + rate s * (e.1 - last))

/-- State reached by folding the event updates over a list of events. -/
def grun {α σ : Type} (upd : α → σ → σ) (s : σ) (es : List (Nat × α)) : σ :=
  es.foldl (fun t e => upd e.2 t) s

/-- Stamp of the last event of a list, with a default for the empty list. -/
def lastStamp {α : Type} : List (Nat × α) → Nat → Nat
  | [], d => d
  | e :: es, _ => lastStamp es e.1

/-- Fold of start/stop flags over a truncating `Nat` counter, mirroring the
`size_t` active-count updates of the sweep loops. -/
def run (c : Nat) (F : List Bool) : Nat :=
  F.foldl (fun c b => if b then c + 1 else c - 1) c

/-- Balance predicate: folding the flag list from counter value `c` never
decrements a zero counter (so truncating `Nat` subtraction agrees with the
exact count). -/
def bal : Nat → List Bool → Prop
  | _, [] => True
  | c, true :: F => bal (c + 1) F
  | c, false :: F => c ≠ 0 ∧ bal (c - 1) F

/-- Counter update of the `concurrency` sweep:
`count += event.type == event::START ? 1 : -1` (util.hpp:93). -/
def cUpd (b : Bool) (c : Nat) : Nat := if b then c + 1 else c - 1

/-- Accumulation rate of the `concurrency` sweep: one unit of `sum_bottom` per
unit of elapsed time while the active count is nonzero (util.hpp:86-91). -/
def cRate (c : Nat) : Nat := if c = 0 then 0 else 1

/-- Counter updates of the `nested_concurrency` sweep (util.hpp:169-184). -/
def nUpd : NTyp → Nat × Nat → Nat × Nat
  | NTyp.starto, s => (s.1 + 1, s.2)
  | NTyp.stopo, s => (s.1 - 1, s.2)
  | NTyp.starti, s => (s.1, s.2 + 1)
  | NTyp.stopi, s => (s.1, s.2 - 1)

/-- Accumulation rate of the `nested_concurrency` sweep:
`ocount * icount` (util.hpp:168). -/
def nRate (s : Nat × Nat) : Nat := s.1 * s.2

/-- Test for outer-interval events. -/
def oFlag : NTyp → Bool
  | NTyp.starto => true
  | NTyp.stopo => true
  | _ => false

/-- Test for start events (outer or inner). -/
def startFlag : NTyp → Bool
  | NTyp.starto => true
  | NTyp.starti => true
  | _ => false

/-- Specification-side definition: the number of intervals of `l` active at
time `t`, an interval `(s, e)` being active on `[s, e)`. -/
def activeCount (l : List (Nat × Nat)) (t : Nat) : Nat :=
  l.countP (fun p => decide (p.1 ≤ t) && decide (t < p.2))

/-- Specification-side definition: the total wall-clock time below the horizon
`T` during which at least one interval of `l` is active, i.e. the length of the
union of the intervals (spec section 4.5). -/
def unionMeasure (l : List (Nat × Nat)) (T : Nat) : Nat :=
  (List.range T).countP (fun t => l.any (fun p => decide (p.1 ≤ t) && decide (t < p.2)))

/-- Specification-side definition: the sum over time of
`outer-active-count × inner-active-count`, i.e. the sum over consecutive
sweep periods of `outer_count × inner_count × elapsed` (spec section 4.5). -/
def weightedOverlap (o i : List (Nat × Nat)) (T : Nat) : Nat :=
  ((List.range T).map (fun t => activeCount o t * activeCount i t)).sum

/-- Flag sequence of the outer-interval events of an event list: the
outer-count updates performed by the `nested_concurrency` sweep. -/
def oProj (es : List (Nat × NTyp)) : List Bool :=
  (es.filter (fun e => oFlag e.2)).map (fun e => startFlag e.2)

/-- Flag sequence of the inner-interval events of an event list: the
inner-count updates performed by the `nested_concurrency` sweep. -/
def iProj (es : List (Nat × NTyp)) : List Bool :=
  (es.filter (fun e => !oFlag e.2)).map (fun e => startFlag e.2)


theorem W_pos : 0 < W := by decide

theorem wsub_exact {a b : Nat} (hba : b ≤ a) (haW : a - b < W) : wsub a b = a - b := by
  unfold wsub
  have h1 : W + a - b = W + (a - b) := by omega
  rw [h1, Nat.add_mod_left, Nat.mod_eq_of_lt haW]

theorem wsub_add_mod (t0 x : Nat) (h0 : t0 < W) (hx : x < W) :
    wsub ((t0 + x) % W) t0 = x := by
  rcases Nat.lt_or_ge (t0 + x) W with h | h
  · rw [Nat.mod_eq_of_lt h]
    have : t0 + x - t0 = x := by omega
    rw [wsub_exact (by omega) (by omega), this]
  · have hmod : (t0 + x) % W = t0 + x - W := by
      rw [Nat.mod_eq_sub_mod h, Nat.mod_eq_of_lt (by omega)]
    rw [hmod]
    unfold wsub
    have h1 : W + (t0 + x - W) - t0 = x := by omega
    rw [h1, Nat.mod_eq_of_lt hx]

theorem foldl_mod_add {α : Type} (f : α → Nat) :
    ∀ (L : List α) (a : Nat),
      L.foldl (fun s x => (s + f x) % W) (a % W) = (a + (L.map f).sum) % W
  | [], a => by simp
  | x :: L, a => by
    have h1 : (a % W + f x) % W = (a + f x) % W := Nat.mod_add_mod a W (f x)
    calc (x :: L).foldl (fun s y => (s + f y) % W) (a % W)
        = L.foldl (fun s y => (s + f y) % W) ((a + f x) % W) := by
          simp [List.foldl_cons, h1]
      _ = (a + f x + (L.map f).sum) % W := foldl_mod_add f L (a + f x)
      _ = (a + ((x :: L).map f).sum) % W := by simp; ring_nf

theorem run_nil (c : Nat) : run c [] = c := rfl

theorem run_cons (c : Nat) (b : Bool) (F : List Bool) :
    run c (b :: F) = run (if b then c + 1 else c - 1) F := rfl

theorem bal_nil (c : Nat) : bal c [] := trivial

theorem bal_cons_true (c : Nat) (F : List Bool) : bal c (true :: F) ↔ bal (c + 1) F :=
  Iff.rfl

theorem bal_cons_false (c : Nat) (F : List Bool) :
    bal c (false :: F) ↔ c ≠ 0 ∧ bal (c - 1) F :=
  Iff.rfl

theorem bal_append : ∀ (F G : List Bool) (c : Nat),
    bal c (F ++ G) ↔ bal c F ∧ bal (run c F) G
  | [], G, c => by simp [bal, run]
  | true :: F, G, c => by
    simp only [List.cons_append, bal_cons_true, run_cons, if_pos]
    exact bal_append F G (c + 1)
  | false :: F, G, c => by
    simp only [List.cons_append, bal_cons_false, run_cons, if_neg]
    rw [bal_append F G (c - 1)]
    simp [and_assoc]

theorem bal_mono : ∀ (F : List Bool) (c : Nat), bal c F → bal (c + 1) F
  | [], _, _ => trivial
  | true :: F, c, h => bal_mono F (c + 1) h
  | false :: F, c, h => by
    rcases h with ⟨hc, h⟩
    refine ⟨by omega, ?_⟩
    have h1 : c + 1 - 1 = (c - 1) + 1 := by omega
    rw [h1]
    exact bal_mono F (c - 1) h

theorem run_succ_of_bal : ∀ (F : List Bool) (c : Nat), bal c F → run (c + 1) F = run c F + 1
  | [], _, _ => rfl
  | true :: F, c, h => by
    simp only [run_cons, if_pos rfl]
    exact run_succ_of_bal F (c + 1) h
  | false :: F, c, h => by
    rcases h with ⟨hc, h⟩
    have h3 := run_succ_of_bal F (c - 1) h
    have h4 : c - 1 + 1 = c := by omega
    rw [h4] at h3
    simpa [run_cons] using h3

theorem run_counts_of_bal : ∀ (F : List Bool) (c : Nat), bal c F →
    run c F + F.countP (fun b => !b) = c + F.countP (fun b => b)
  | [], c, _ => by simp [run]
  | true :: F, c, h => by
    have ih := run_counts_of_bal F (c + 1) h
    simp [run_cons, List.countP_cons] at ih ⊢
    omega
  | false :: F, c, h => by
    rcases h with ⟨hc, h⟩
    have ih := run_counts_of_bal F (c - 1) h
    simp [run_cons, List.countP_cons] at ih ⊢
    omega

theorem bal_of_append_left {F G : List Bool} {c : Nat} (h : bal c (F ++ G)) : bal c F :=
  ((bal_append F G c).mp h).1

theorem bal_insert_pair {A B C : List Bool} {c : Nat}
    (h : bal c (A ++ (B ++ C))) : bal c (A ++ true :: (B ++ false :: C)) := by
  rcases (bal_append A (B ++ C) c).mp h with ⟨hA, hBC⟩
  rcases (bal_append B C (run c A)).mp hBC with ⟨hB, hC⟩
  refine (bal_append A (true :: (B ++ false :: C)) c).mpr ⟨hA, ?_⟩
  rw [bal_cons_true]
  refine (bal_append B (false :: C) (run c A + 1)).mpr ⟨bal_mono B (run c A) hB, ?_⟩
  rw [run_succ_of_bal B (run c A) hB, bal_cons_false]
  refine ⟨by omega, ?_⟩
  have h1 : run (run c A) B + 1 - 1 = run (run c A) B := by omega
  rw [h1]
  exact hC

theorem takeWhile_append_cons_of_neg {α : Type} (p : α → Bool) (x : α) (h : p x = false) :
    ∀ (P S : List α), (P ++ x :: S).takeWhile p = P.takeWhile p
  | [], S => by simp [List.takeWhile_cons, h]
  | a :: P, S => by
    rcases Bool.eq_false_or_eq_true (p a) with ha | ha <;>
      simp [List.takeWhile_cons, ha, takeWhile_append_cons_of_neg p x h P S]

theorem dropWhile_append_cons_of_neg {α : Type} (p : α → Bool) (x : α) (h : p x = false) :
    ∀ (P S : List α), (P ++ x :: S).dropWhile p = P.dropWhile p ++ x :: S
  | [], S => by simp [List.dropWhile_cons, h]
  | a :: P, S => by
    rcases Bool.eq_false_or_eq_true (p a) with ha | ha <;>
      simp [List.dropWhile_cons, ha, dropWhile_append_cons_of_neg p x h P S]

theorem orderedInsert_split {α : Type} (x : Nat × α) :
    ∀ L : List (Nat × α),
      List.orderedInsert stampLE x L
        = L.takeWhile (fun y => decide (y.1 < x.1)) ++
            x :: L.dropWhile (fun y => decide (y.1 < x.1))
  | [] => rfl
  | y :: L => by
    by_cases h : stampLE x y
    · have hy : decide (y.1 < x.1) = false := by
        simp only [decide_eq_false_iff_not]
        have : x.1 ≤ y.1 := h
        omega
      simp [List.orderedInsert, h, List.takeWhile_cons, List.dropWhile_cons, hy]
    · have hy : decide (y.1 < x.1) = true := by
        simp only [decide_eq_true_eq]
        have : ¬ x.1 ≤ y.1 := h
        omega
      simp [List.orderedInsert, h, List.takeWhile_cons, List.dropWhile_cons, hy,
        orderedInsert_split x L]

theorem orderedInsert_pair_split {α : Type} (L : List (Nat × α)) (s e : Nat) (a b : α)
    (hse : s ≤ e) :
    ∃ A B C, L = A ++ (B ++ C) ∧
      List.orderedInsert stampLE (s, a) (List.orderedInsert stampLE (e, b) L)
        = A ++ ((s, a) :: (B ++ ((e, b) :: C))) := by
  have h1 := orderedInsert_split (e, b) L
  have h2 := orderedInsert_split (s, a)
      (L.takeWhile (fun y => decide (y.1 < e)) ++ (e, b) :: L.dropWhile (fun y => decide (y.1 < e)))
  have hne : decide ((e, b).1 < (s, a).1) = false := by
    simp only [decide_eq_false_iff_not]
    omega
  refine ⟨(L.takeWhile (fun y => decide (y.1 < e))).takeWhile (fun y => decide (y.1 < s)),
      (L.takeWhile (fun y => decide (y.1 < e))).dropWhile (fun y => decide (y.1 < s)),
      L.dropWhile (fun y => decide (y.1 < e)), ?_, ?_⟩
  · rw [← List.append_assoc, List.takeWhile_append_dropWhile, List.takeWhile_append_dropWhile]
  · rw [h1, h2,
      takeWhile_append_cons_of_neg (fun y => decide (y.1 < s)) (e, b) hne,
      dropWhile_append_cons_of_neg (fun y => decide (y.1 < s)) (e, b) hne]

theorem lastStamp_cons {α : Type} (e : Nat × α) (es : List (Nat × α)) (d : Nat) :
    lastStamp (e :: es) d = lastStamp es e.1 := rfl

theorem lastStamp_ge {α : Type} :
    ∀ (es : List (Nat × α)) (d : Nat), List.Pairwise stampLE es →
      (∀ x ∈ es, d ≤ x.1) → d ≤ lastStamp es d
  | [], d, _, _ => Nat.le_refl d
  | e :: es, d, hp, h => by
    rcases List.pairwise_cons.mp hp with ⟨hall, hp2⟩
    have h1 : d ≤ e.1 := h e (List.mem_cons_self e es)
    rw [lastStamp_cons]
    exact Nat.le_trans h1 (lastStamp_ge es e.1 hp2 hall)

theorem stamp_le_lastStamp {α : Type} :
    ∀ (es : List (Nat × α)) (d : Nat), List.Pairwise stampLE es →
      ∀ x ∈ es, x.1 ≤ lastStamp es d
  | [], _, _, x, hx => absurd hx (List.not_mem_nil x)
  | e :: es, d, hp, x, hx => by
    rcases List.pairwise_cons.mp hp with ⟨hall, hp2⟩
    rw [lastStamp_cons]
    rcases List.mem_cons.mp hx with rfl | hx2
    · exact lastStamp_ge es x.1 hp2 hall
    · exact stamp_le_lastStamp es e.1 hp2 x hx2

theorem lastStamp_cases {α : Type} :
    ∀ (es : List (Nat × α)) (d : Nat), lastStamp es d = d ∨ ∃ x ∈ es, lastStamp es d = x.1
  | [], d => Or.inl rfl
  | e :: es, d => by
    rw [lastStamp_cons]
    rcases lastStamp_cases es e.1 with h | ⟨x, hx, h⟩
    · exact Or.inr ⟨e, List.mem_cons_self e es, h⟩
    · exact Or.inr ⟨x, List.mem_cons_of_mem e hx, h⟩

theorem takeWhile_eq_filter_of_sorted {α : Type} (t : Nat) :
    ∀ es : List (Nat × α), List.Pairwise stampLE es →
      es.takeWhile (fun e => decide (e.1 ≤ t)) = es.filter (fun e => decide (e.1 ≤ t))
  | [], _ => rfl
  | e :: es, hp => by
    rcases List.pairwise_cons.mp hp with ⟨hall, hp2⟩
    by_cases he : e.1 ≤ t
    · simp only [List.takeWhile_cons, List.filter_cons, decide_eq_true he, if_pos trivial]
      rw [takeWhile_eq_filter_of_sorted t es hp2]
    · have hd : decide (e.1 ≤ t) = false := decide_eq_false he
      simp only [List.takeWhile_cons, List.filter_cons, hd]
      simp only [Bool.false_eq_true, if_false, cond_false]
      symm
      rw [List.filter_eq_nil_iff]
      intro x hx
      have h1 : e.1 ≤ x.1 := hall x hx
      simp only [decide_eq_true_eq]
      omega

theorem grun_nil {α σ : Type} (upd : α → σ → σ) (s : σ) : grun upd s [] = s := rfl

theorem grun_cons {α σ : Type} (upd : α → σ → σ) (s : σ) (e : Nat × α)
    (es : List (Nat × α)) : grun upd s (e :: es) = grun upd (upd e.2 s) es := rfl

theorem sum_map_const_rate (c a n : Nat) :
    ((List.range' a n).map (fun _ => c)).sum = n * c := by
  rw [List.map_const', List.length_range']
  exact List.sum_const_nat n c

theorem gsweep_eq {α σ : Type} (upd : α → σ → σ) (rate : σ → Nat) :
    ∀ (es : List (Nat × α)) (s : σ) (last acc : Nat),
      List.Pairwise stampLE es → (∀ e ∈ es, last ≤ e.1) →
      gsweep upd rate es s last acc =
        acc + ((List.range' last (lastStamp es last - last)).map
          (fun t => rate (grun upd s (es.takeWhile (fun e => decide (e.1 ≤ t)))))).sum
  | [], s, last, acc, _, _ => by simp [gsweep, lastStamp]
  | e :: es, s, last, acc, hp, hlb => by
    rcases List.pairwise_cons.mp hp with ⟨hall, hp2⟩
    have hlast : last ≤ e.1 := hlb e (List.mem_cons_self e es)
    have hM : e.1 ≤ lastStamp es e.1 := lastStamp_ge es e.1 hp2 hall
    have ih := gsweep_eq upd rate es (upd e.2 s) e.1 (acc + rate s * (e.1 - last)) hp2 hall
    show gsweep upd rate es (upd e.2 s) e.1 (acc + rate s * (e.1 - last)) = _
    rw [ih, lastStamp_cons]
    have h2 : (lastStamp es e.1 - e.1) + (e.1 - last) = lastStamp es e.1 - last := by omega
    have h1 : last + (e.1 - last) = e.1 := by omega
    have hsplit : List.range' last (e.1 - last) ++ List.range' e.1 (lastStamp es e.1 - e.1)
        = List.range' last (lastStamp es e.1 - last) := by
      have h3 := List.range'_append_1 last (e.1 - last) (lastStamp es e.1 - e.1)
      rw [h1] at h3
      rw [h3, h2]
    rw [← hsplit, List.map_append, List.sum_append]
    have hfirst : ((List.range' last (e.1 - last)).map
        (fun t => rate (grun upd s ((e :: es).takeWhile (fun x => decide (x.1 ≤ t)))))).sum
        = (e.1 - last) * rate s := by
      rw [List.map_congr_left, sum_map_const_rate (rate s) last (e.1 - last)]
      intro t ht
      rcases List.mem_range'_1.mp ht with ⟨ht1, ht2⟩
      have hd : decide (e.1 ≤ t) = false := by
        simp only [decide_eq_false_iff_not]
        omega
      rw [List.takeWhile_cons, hd]
      simp [grun_nil]
    have hsecond : ((List.range' e.1 (lastStamp es e.1 - e.1)).map
        (fun t => rate (grun upd s ((e :: es).takeWhile (fun x => decide (x.1 ≤ t)))))).sum
        = ((List.range' e.1 (lastStamp es e.1 - e.1)).map
          (fun t => rate (grun upd (upd e.2 s) (es.takeWhile (fun x => decide (x.1 ≤ t)))))).sum := by
      rw [List.map_congr_left]
      intro t ht
      rcases List.mem_range'_1.mp ht with ⟨ht1, ht2⟩
      have hd : decide (e.1 ≤ t) = true := decide_eq_true ht1
      rw [List.takeWhile_cons, hd]
      simp [grun_cons]
    rw [hfirst, hsecond]
    have hcomm : rate s * (e.1 - last) = (e.1 - last) * rate s := Nat.mul_comm _ _
    omega

theorem concSweep_eq_gsweep :
    ∀ (es : List (Nat × Bool)) (c last p : Nat),
      List.Pairwise stampLE es → (∀ e ∈ es, last ≤ e.1 ∧ e.1 < W) →
      concSweep es c last (p % W) = (gsweep cUpd cRate es c last p) % W
  | [], _, _, _, _, _ => rfl
  | e :: es, c, last, p, hp, hb => by
    rcases List.pairwise_cons.mp hp with ⟨hall, hp2⟩
    rcases hb e (List.mem_cons_self e es) with ⟨hlast, heW⟩
    have hb2 : ∀ x ∈ es, e.1 ≤ x.1 ∧ x.1 < W := fun x hx =>
      ⟨hall x hx, (hb x (List.mem_cons_of_mem e hx)).2⟩
    have hws : wsub e.1 last = e.1 - last := wsub_exact hlast (by omega)
    show concSweep es (if e.2 then c + 1 else c - 1) e.1
        (if c ≠ 0 then ((p % W) + wsub e.1 last) % W else p % W)
      = gsweep cUpd cRate es (cUpd e.2 c) e.1 (p + cRate c * (e.1 - last)) % W
    have hacc : (if c ≠ 0 then ((p % W) + wsub e.1 last) % W else p % W)
        = (p + cRate c * (e.1 - last)) % W := by
      by_cases hc : c = 0
      · simp [hc, cRate]
      · rw [if_pos hc, hws, Nat.mod_add_mod]
        have : cRate c = 1 := by simp [cRate, hc]
        rw [this, Nat.one_mul]
    rw [hacc]
    have := concSweep_eq_gsweep es (if e.2 then c + 1 else c - 1) e.1
        (p + cRate c * (e.1 - last)) hp2 hb2
    simpa [cUpd] using this

theorem nestSweep_cons (e : Nat × NTyp) (es : List (Nat × NTyp)) (oc ic last s : Nat) :
    nestSweep (e :: es) oc ic last s =
      nestSweep es (nUpd e.2 (oc, ic)).1 (nUpd e.2 (oc, ic)).2 e.1
        ((s + oc * ic * wsub e.1 last) % W) := by
  cases e with
  | mk st ty => cases ty <;> rfl

theorem nestSweep_eq_gsweep :
    ∀ (es : List (Nat × NTyp)) (oc ic last p : Nat),
      List.Pairwise stampLE es → (∀ e ∈ es, last ≤ e.1 ∧ e.1 < W) →
      nestSweep es oc ic last (p % W) = (gsweep nUpd nRate es (oc, ic) last p) % W
  | [], _, _, _, _, _, _ => rfl
  | e :: es, oc, ic, last, p, hp, hb => by
    rcases List.pairwise_cons.mp hp with ⟨hall, hp2⟩
    rcases hb e (List.mem_cons_self e es) with ⟨hlast, heW⟩
    have hb2 : ∀ x ∈ es, e.1 ≤ x.1 ∧ x.1 < W := fun x hx =>
      ⟨hall x hx, (hb x (List.mem_cons_of_mem e hx)).2⟩
    have hws : wsub e.1 last = e.1 - last := wsub_exact hlast (by omega)
    have hacc : ((p % W) + oc * ic * wsub e.1 last) % W
        = (p + nRate (oc, ic) * (e.1 - last)) % W := by
      rw [hws, Nat.mod_add_mod]
      rfl
    rw [nestSweep_cons, hacc]
    exact nestSweep_eq_gsweep es (nUpd e.2 (oc, ic)).1 (nUpd e.2 (oc, ic)).2 e.1
      (p + nRate (oc, ic) * (e.1 - last)) hp2 hb2

theorem conc_bal :
    ∀ l : List (Nat × Nat), (∀ p ∈ l, p.1 ≤ p.2) →
      bal 0 ((List.insertionSort stampLE (concEvents l)).map (fun e => e.2))
  | [], _ => trivial
  | p :: l, hwf => by
    have ih := conc_bal l (fun q hq => hwf q (List.mem_cons_of_mem p hq))
    have hse : p.1 ≤ p.2 := hwf p (List.mem_cons_self p l)
    obtain ⟨A, B, C, hL, hIns⟩ :=
      orderedInsert_pair_split (List.insertionSort stampLE (concEvents l)) p.1 p.2
        true false hse
    show bal 0 ((List.orderedInsert stampLE (p.1, true)
        (List.orderedInsert stampLE (p.2, false)
          (List.insertionSort stampLE (concEvents l)))).map (fun e => e.2))
    rw [hIns]
    rw [hL] at ih
    simp only [List.map_append, List.map_cons] at ih ⊢
    exact bal_insert_pair ih

theorem nest_bal_inner :
    ∀ i : List (Nat × Nat), (∀ p ∈ i, p.1 ≤ p.2) →
      bal 0 (oProj (List.insertionSort stampLE (innerEvents i)))
      ∧ bal 0 (iProj (List.insertionSort stampLE (innerEvents i)))
  | [], _ => ⟨trivial, trivial⟩
  | p :: i, hwf => by
    have ih := nest_bal_inner i (fun q hq => hwf q (List.mem_cons_of_mem p hq))
    have hse : p.1 ≤ p.2 := hwf p (List.mem_cons_self p i)
    obtain ⟨A, B, C, hL, hIns⟩ :=
      orderedInsert_pair_split (List.insertionSort stampLE (innerEvents i)) p.1 p.2
        NTyp.starti NTyp.stopi hse
    have hshow : List.insertionSort stampLE (innerEvents (p :: i))
        = List.orderedInsert stampLE (p.1, NTyp.starti)
            (List.orderedInsert stampLE (p.2, NTyp.stopi)
              (List.insertionSort stampLE (innerEvents i))) := rfl
    rw [hL] at ih
    constructor
    · rw [hshow, hIns]
      have h1 := ih.1
      simp only [oProj, List.filter_append, List.filter_cons, List.map_append,
        oFlag, startFlag, Bool.false_eq_true, if_false] at h1 ⊢
      exact h1
    · rw [hshow, hIns]
      have h1 := ih.2
      simp only [iProj, List.filter_append, List.filter_cons, List.map_append,
        List.map_cons, oFlag, startFlag, Bool.not_false, if_pos trivial] at h1 ⊢
      exact bal_insert_pair h1

theorem nest_bal :
    ∀ (o i : List (Nat × Nat)), (∀ p ∈ o, p.1 ≤ p.2) → (∀ p ∈ i, p.1 ≤ p.2) →
      bal 0 (oProj (List.insertionSort stampLE (outerEvents o ++ innerEvents i)))
      ∧ bal 0 (iProj (List.insertionSort stampLE (outerEvents o ++ innerEvents i)))
  | [], i, _, hwfi => nest_bal_inner i hwfi
  | p :: o, i, hwfo, hwfi => by
    have ih := nest_bal o i (fun q hq => hwfo q (List.mem_cons_of_mem p hq)) hwfi
    have hse : p.1 ≤ p.2 := hwfo p (List.mem_cons_self p o)
    obtain ⟨A, B, C, hL, hIns⟩ :=
      orderedInsert_pair_split (List.insertionSort stampLE (outerEvents o ++ innerEvents i))
        p.1 p.2 NTyp.starto NTyp.stopo hse
    have hshow : List.insertionSort stampLE (outerEvents (p :: o) ++ innerEvents i)
        = List.orderedInsert stampLE (p.1, NTyp.starto)
            (List.orderedInsert stampLE (p.2, NTyp.stopo)
              (List.insertionSort stampLE (outerEvents o ++ innerEvents i))) := rfl
    rw [hL] at ih
    constructor
    · rw [hshow, hIns]
      have h1 := ih.1
      simp only [oProj, List.filter_append, List.filter_cons, List.map_append,
        List.map_cons, oFlag, startFlag, Bool.false_eq_true, if_pos trivial] at h1 ⊢
      exact bal_insert_pair h1
    · rw [hshow, hIns]
      have h1 := ih.2
      simp only [iProj, List.filter_append, List.filter_cons, List.map_append,
        oFlag, startFlag, Bool.not_true, Bool.false_eq_true, if_false] at h1 ⊢
      exact h1

theorem concEvents_countP_start (t : Nat) :
    ∀ l : List (Nat × Nat),
      (concEvents l).countP (fun e => e.2 && decide (e.1 ≤ t))
        = l.countP (fun p => decide (p.1 ≤ t))
  | [] => rfl
  | p :: l => by
    simp only [concEvents, List.countP_cons, concEvents_countP_start t l]
    simp

theorem concEvents_countP_stop (t : Nat) :
    ∀ l : List (Nat × Nat),
      (concEvents l).countP (fun e => !e.2 && decide (e.1 ≤ t))
        = l.countP (fun p => decide (p.2 ≤ t))
  | [] => rfl
  | p :: l => by
    simp only [concEvents, List.countP_cons, concEvents_countP_stop t l]
    simp

theorem outerEvents_countP_ostart (t : Nat) :
    ∀ o : List (Nat × Nat),
      (outerEvents o).countP (fun e => (startFlag e.2 && oFlag e.2) && decide (e.1 ≤ t))
        = o.countP (fun p => decide (p.1 ≤ t))
  | [] => rfl
  | p :: o => by
    simp only [outerEvents, List.countP_cons, outerEvents_countP_ostart t o]
    simp [startFlag, oFlag]

theorem outerEvents_countP_ostop (t : Nat) :
    ∀ o : List (Nat × Nat),
      (outerEvents o).countP (fun e => (!startFlag e.2 && oFlag e.2) && decide (e.1 ≤ t))
        = o.countP (fun p => decide (p.2 ≤ t))
  | [] => rfl
  | p :: o => by
    simp only [outerEvents, List.countP_cons, outerEvents_countP_ostop t o]
    simp [startFlag, oFlag]

theorem innerEvents_countP_ostart (t : Nat) :
    ∀ i : List (Nat × Nat),
      (innerEvents i).countP (fun e => (startFlag e.2 && oFlag e.2) && decide (e.1 ≤ t)) = 0
  | [] => rfl
  | p :: i => by
    simp only [innerEvents, List.countP_cons, innerEvents_countP_ostart t i]
    simp [startFlag, oFlag]

theorem innerEvents_countP_ostop (t : Nat) :
    ∀ i : List (Nat × Nat),
      (innerEvents i).countP (fun e => (!startFlag e.2 && oFlag e.2) && decide (e.1 ≤ t)) = 0
  | [] => rfl
  | p :: i => by
    simp only [innerEvents, List.countP_cons, innerEvents_countP_ostop t i]
    simp [startFlag, oFlag]

theorem innerEvents_countP_istart (t : Nat) :
    ∀ i : List (Nat × Nat),
      (innerEvents i).countP (fun e => (startFlag e.2 && !oFlag e.2) && decide (e.1 ≤ t))
        = i.countP (fun p => decide (p.1 ≤ t))
  | [] => rfl
  | p :: i => by
    simp only [innerEvents, List.countP_cons, innerEvents_countP_istart t i]
    simp [startFlag, oFlag]

theorem innerEvents_countP_istop (t : Nat) :
    ∀ i : List (Nat × Nat),
      (innerEvents i).countP (fun e => (!startFlag e.2 && !oFlag e.2) && decide (e.1 ≤ t))
        = i.countP (fun p => decide (p.2 ≤ t))
  | [] => rfl
  | p :: i => by
    simp only [innerEvents, List.countP_cons, innerEvents_countP_istop t i]
    simp [startFlag, oFlag]

theorem outerEvents_countP_istart (t : Nat) :
    ∀ o : List (Nat × Nat),
      (outerEvents o).countP (fun e => (startFlag e.2 && !oFlag e.2) && decide (e.1 ≤ t)) = 0
  | [] => rfl
  | p :: o => by
    simp only [outerEvents, List.countP_cons, outerEvents_countP_istart t o]
    simp [startFlag, oFlag]

theorem outerEvents_countP_istop (t : Nat) :
    ∀ o : List (Nat × Nat),
      (outerEvents o).countP (fun e => (!startFlag e.2 && !oFlag e.2) && decide (e.1 ≤ t)) = 0
  | [] => rfl
  | p :: o => by
    simp only [outerEvents, List.countP_cons, outerEvents_countP_istop t o]
    simp [startFlag, oFlag]

theorem mem_concEvents_stamp :
    ∀ (l : List (Nat × Nat)) (e : Nat × Bool), e ∈ concEvents l →
      ∃ p ∈ l, e.1 = p.1 ∨ e.1 = p.2
  | [], e, he => absurd he (List.not_mem_nil e)
  | p :: l, e, he => by
    rcases List.mem_cons.mp he with rfl | he2
    · exact ⟨p, List.mem_cons_self p l, Or.inl rfl⟩
    rcases List.mem_cons.mp he2 with rfl | he3
    · exact ⟨p, List.mem_cons_self p l, Or.inr rfl⟩
    · rcases mem_concEvents_stamp l e he3 with ⟨q, hq, h⟩
      exact ⟨q, List.mem_cons_of_mem p hq, h⟩

theorem concEvents_stop_mem :
    ∀ (l : List (Nat × Nat)) (p : Nat × Nat), p ∈ l → (p.2, false) ∈ concEvents l
  | [], p, hp => absurd hp (List.not_mem_nil p)
  | q :: l, p, hp => by
    rcases List.mem_cons.mp hp with rfl | hp2
    · exact List.mem_cons_of_mem _ (List.mem_cons_self _ _)
    · exact List.mem_cons_of_mem _ (List.mem_cons_of_mem _ (concEvents_stop_mem l p hp2))

theorem mem_outerEvents_stamp :
    ∀ (o : List (Nat × Nat)) (e : Nat × NTyp), e ∈ outerEvents o →
      ∃ p ∈ o, e.1 = p.1 ∨ e.1 = p.2
  | [], e, he => absurd he (List.not_mem_nil e)
  | p :: o, e, he => by
    rcases List.mem_cons.mp he with rfl | he2
    · exact ⟨p, List.mem_cons_self p o, Or.inl rfl⟩
    rcases List.mem_cons.mp he2 with rfl | he3
    · exact ⟨p, List.mem_cons_self p o, Or.inr rfl⟩
    · rcases mem_outerEvents_stamp o e he3 with ⟨q, hq, h⟩
      exact ⟨q, List.mem_cons_of_mem p hq, h⟩

theorem mem_innerEvents_stamp :
    ∀ (i : List (Nat × Nat)) (e : Nat × NTyp), e ∈ innerEvents i →
      ∃ p ∈ i, e.1 = p.1 ∨ e.1 = p.2
  | [], e, he => absurd he (List.not_mem_nil e)
  | p :: i, e, he => by
    rcases List.mem_cons.mp he with rfl | he2
    · exact ⟨p, List.mem_cons_self p i, Or.inl rfl⟩
    rcases List.mem_cons.mp he2 with rfl | he3
    · exact ⟨p, List.mem_cons_self p i, Or.inr rfl⟩
    · rcases mem_innerEvents_stamp i e he3 with ⟨q, hq, h⟩
      exact ⟨q, List.mem_cons_of_mem p hq, h⟩

theorem outerEvents_stop_mem :
    ∀ (o : List (Nat × Nat)) (p : Nat × Nat), p ∈ o → (p.2, NTyp.stopo) ∈ outerEvents o
  | [], p, hp => absurd hp (List.not_mem_nil p)
  | q :: o, p, hp => by
    rcases List.mem_cons.mp hp with rfl | hp2
    · exact List.mem_cons_of_mem _ (List.mem_cons_self _ _)
    · exact List.mem_cons_of_mem _ (List.mem_cons_of_mem _ (outerEvents_stop_mem o p hp2))

theorem innerEvents_stop_mem :
    ∀ (i : List (Nat × Nat)) (p : Nat × Nat), p ∈ i → (p.2, NTyp.stopi) ∈ innerEvents i
  | [], p, hp => absurd hp (List.not_mem_nil p)
  | q :: i, hp2, hp => by
    rcases List.mem_cons.mp hp with rfl | hp3
    · exact List.mem_cons_of_mem _ (List.mem_cons_self _ _)
    · exact List.mem_cons_of_mem _ (List.mem_cons_of_mem _ (innerEvents_stop_mem i hp2 hp3))

theorem outerEvents_start_mem :
    ∀ (o : List (Nat × Nat)) (p : Nat × Nat), p ∈ o → (p.1, NTyp.starto) ∈ outerEvents o
  | [], p, hp => absurd hp (List.not_mem_nil p)
  | q :: o, p, hp => by
    rcases List.mem_cons.mp hp with rfl | hp2
    · exact List.mem_cons_self _ _
    · exact List.mem_cons_of_mem _ (List.mem_cons_of_mem _ (outerEvents_start_mem o p hp2))

theorem innerEvents_start_mem :
    ∀ (i : List (Nat × Nat)) (p : Nat × Nat), p ∈ i → (p.1, NTyp.starti) ∈ innerEvents i
  | [], p, hp => absurd hp (List.not_mem_nil p)
  | q :: i, p, hp => by
    rcases List.mem_cons.mp hp with rfl | hp2
    · exact List.mem_cons_self _ _
    · exact List.mem_cons_of_mem _ (List.mem_cons_of_mem _ (innerEvents_start_mem i p hp2))

theorem countP_stop_le_start (l : List (Nat × Nat)) (hwf : ∀ p ∈ l, p.1 ≤ p.2) (t : Nat) :
    l.countP (fun p => decide (p.1 ≤ t))
      = l.countP (fun p => decide (p.2 ≤ t)) + activeCount l t := by
  have h1 := List.countP_eq_countP_filter_add l
    (fun p => decide (p.1 ≤ t)) (fun p => decide (p.2 ≤ t))
  rw [List.countP_filter, List.countP_filter] at h1
  have h2 : l.countP (fun p => decide (p.2 ≤ t))
      = l.countP (fun p => decide (p.1 ≤ t) && decide (p.2 ≤ t)) := by
    apply List.countP_congr
    intro p hp
    have hw := hwf p hp
    simp only [Bool.and_eq_true, decide_eq_true_eq]
    omega
  have h3 : activeCount l t
      = l.countP (fun p => decide (p.1 ≤ t) && !decide (p.2 ≤ t)) := by
    apply List.countP_congr
    intro p hp
    simp only [Bool.and_eq_true, decide_eq_true_eq, Bool.not_eq_true', decide_eq_false_iff_not]
    omega
  rw [h2, h3]
  exact h1

theorem conc_run_eq (ES : List (Nat × Bool)) (l : List (Nat × Nat)) (t : Nat)
    (hsorted : List.Pairwise stampLE ES)
    (hbalfull : bal 0 (ES.map (fun e => e.2)))
    (hperm : ES.Perm (concEvents l))
    (hwf : ∀ p ∈ l, p.1 ≤ p.2) :
    run 0 ((ES.takeWhile (fun e => decide (e.1 ≤ t))).map (fun e => e.2))
      = activeCount l t := by
  have htf := takeWhile_eq_filter_of_sorted t ES hsorted
  have hbal : bal 0 ((ES.takeWhile (fun e => decide (e.1 ≤ t))).map (fun e => e.2)) := by
    have h2 : ES.takeWhile (fun e => decide (e.1 ≤ t))
        ++ ES.dropWhile (fun e => decide (e.1 ≤ t)) = ES :=
      List.takeWhile_append_dropWhile _ _
    rw [← h2, List.map_append] at hbalfull
    exact bal_of_append_left hbalfull
  have hrc := run_counts_of_bal
    ((ES.takeWhile (fun e => decide (e.1 ≤ t))).map (fun e => e.2)) 0 hbal
  have hstart : ((ES.takeWhile (fun e => decide (e.1 ≤ t))).map (fun e => e.2)).countP
      (fun b => b) = l.countP (fun p => decide (p.1 ≤ t)) := by
    rw [htf, List.countP_map, List.countP_filter, hperm.countP_eq]
    exact concEvents_countP_start t l
  have hstop : ((ES.takeWhile (fun e => decide (e.1 ≤ t))).map (fun e => e.2)).countP
      (fun b => !b) = l.countP (fun p => decide (p.2 ≤ t)) := by
    rw [htf, List.countP_map, List.countP_filter, hperm.countP_eq]
    exact concEvents_countP_stop t l
  have hact := countP_stop_le_start l hwf t
  omega

theorem grun_nUpd_proj :
    ∀ (es : List (Nat × NTyp)) (s : Nat × Nat),
      grun nUpd s es = (run s.1 (oProj es), run s.2 (iProj es))
  | [], s => rfl
  | e :: es, s => by
    cases e with
    | mk st ty =>
      cases ty <;>
        simp only [grun_cons, oProj, iProj, List.filter_cons, List.map_cons, nUpd,
          oFlag, startFlag, Bool.not_true, Bool.not_false, Bool.false_eq_true, if_false,
          if_pos trivial, run_cons, if_true] <;>
        exact grun_nUpd_proj es _

theorem nest_run_eq (ES : List (Nat × NTyp)) (o i : List (Nat × Nat)) (t : Nat)
    (hsorted : List.Pairwise stampLE ES)
    (hbalO : bal 0 (oProj ES)) (hbalI : bal 0 (iProj ES))
    (hperm : ES.Perm (outerEvents o ++ innerEvents i))
    (hwfo : ∀ p ∈ o, p.1 ≤ p.2) (hwfi : ∀ p ∈ i, p.1 ≤ p.2) :
    grun nUpd (0, 0) (ES.takeWhile (fun e => decide (e.1 ≤ t)))
      = (activeCount o t, activeCount i t) := by
  rw [grun_nUpd_proj]
  have htf := takeWhile_eq_filter_of_sorted t ES hsorted
  have hsplit : ES.takeWhile (fun e => decide (e.1 ≤ t))
      ++ ES.dropWhile (fun e => decide (e.1 ≤ t)) = ES :=
    List.takeWhile_append_dropWhile _ _
  have hbalO2 : bal 0 (oProj (ES.takeWhile (fun e => decide (e.1 ≤ t)))) := by
    rw [← hsplit] at hbalO
    unfold oProj at hbalO ⊢
    rw [List.filter_append, List.map_append] at hbalO
    exact bal_of_append_left hbalO
  have hbalI2 : bal 0 (iProj (ES.takeWhile (fun e => decide (e.1 ≤ t)))) := by
    rw [← hsplit] at hbalI
    unfold iProj at hbalI ⊢
    rw [List.filter_append, List.map_append] at hbalI
    exact bal_of_append_left hbalI
  have hrcO := run_counts_of_bal (oProj (ES.takeWhile (fun e => decide (e.1 ≤ t)))) 0 hbalO2
  have hrcI := run_counts_of_bal (iProj (ES.takeWhile (fun e => decide (e.1 ≤ t)))) 0 hbalI2
  have hredOs : (oProj (ES.filter (fun e => decide (e.1 ≤ t)))).countP (fun b => b)
      = ES.countP (fun e => (startFlag e.2 && oFlag e.2) && decide (e.1 ≤ t)) := by
    unfold oProj
    rw [List.countP_map, List.countP_filter, List.countP_filter]
    rfl
  have hredOe : (oProj (ES.filter (fun e => decide (e.1 ≤ t)))).countP (fun b => !b)
      = ES.countP (fun e => (!startFlag e.2 && oFlag e.2) && decide (e.1 ≤ t)) := by
    unfold oProj
    rw [List.countP_map, List.countP_filter, List.countP_filter]
    rfl
  have hredIs : (iProj (ES.filter (fun e => decide (e.1 ≤ t)))).countP (fun b => b)
      = ES.countP (fun e => (startFlag e.2 && !oFlag e.2) && decide (e.1 ≤ t)) := by
    unfold iProj
    rw [List.countP_map, List.countP_filter, List.countP_filter]
    rfl
  have hredIe : (iProj (ES.filter (fun e => decide (e.1 ≤ t)))).countP (fun b => !b)
      = ES.countP (fun e => (!startFlag e.2 && !oFlag e.2) && decide (e.1 ≤ t)) := by
    unfold iProj
    rw [List.countP_map, List.countP_filter, List.countP_filter]
    rfl
  have hOs : (oProj (ES.takeWhile (fun e => decide (e.1 ≤ t)))).countP (fun b => b)
      = o.countP (fun p => decide (p.1 ≤ t)) := by
    rw [htf, hredOs, hperm.countP_eq, List.countP_append,
      outerEvents_countP_ostart t o, innerEvents_countP_ostart t i]
    omega
  have hOe : (oProj (ES.takeWhile (fun e => decide (e.1 ≤ t)))).countP (fun b => !b)
      = o.countP (fun p => decide (p.2 ≤ t)) := by
    rw [htf, hredOe, hperm.countP_eq, List.countP_append,
      outerEvents_countP_ostop t o, innerEvents_countP_ostop t i]
    omega
  have hIs : (iProj (ES.takeWhile (fun e => decide (e.1 ≤ t)))).countP (fun b => b)
      = i.countP (fun p => decide (p.1 ≤ t)) := by
    rw [htf, hredIs, hperm.countP_eq, List.countP_append,
      outerEvents_countP_istart t o, innerEvents_countP_istart t i]
    omega
  have hIe : (iProj (ES.takeWhile (fun e => decide (e.1 ≤ t)))).countP (fun b => !b)
      = i.countP (fun p => decide (p.2 ≤ t)) := by
    rw [htf, hredIe, hperm.countP_eq, List.countP_append,
      outerEvents_countP_istop t o, innerEvents_countP_istop t i]
    omega
  have hactO := countP_stop_le_start o hwfo t
  have hactI := countP_stop_le_start i hwfi t
  have hO : run 0 (oProj (ES.takeWhile (fun e => decide (e.1 ≤ t)))) = activeCount o t := by
    omega
  have hI : run 0 (iProj (ES.takeWhile (fun e => decide (e.1 ≤ t)))) = activeCount i t := by
    omega
  rw [hO, hI]

theorem sum_lens_eq (l : List (Nat × Nat)) (hwf : ∀ p ∈ l, p.1 ≤ p.2 ∧ p.2 < W) :
    sum_lens l = ((l.map (fun p => p.2 - p.1)).sum) % W := by
  unfold sum_lens
  have h0 := foldl_mod_add (fun p : Nat × Nat => wsub p.2 p.1) l 0
  rw [Nat.zero_mod, Nat.zero_add] at h0
  rw [h0]
  have hcong : l.map (fun p : Nat × Nat => wsub p.2 p.1) = l.map (fun p => p.2 - p.1) :=
    List.map_congr_left (fun p hp => wsub_exact (hwf p hp).1 (by have := (hwf p hp).2; omega))
  rw [hcong]

theorem grun_cUpd_eq_run : ∀ (es : List (Nat × Bool)) (s : Nat),
    grun cUpd s es = run s (es.map (fun e => e.2))
  | [], _ => rfl
  | e :: es, s => by
    rw [grun_cons, List.map_cons, run_cons]
    exact grun_cUpd_eq_run es (cUpd e.2 s)

theorem sum_map_ite01 (P : Nat → Bool) : ∀ L : List Nat,
    (L.map (fun t => if P t then 1 else 0)).sum = L.countP P
  | [] => rfl
  | x :: L => by
    rcases Bool.eq_false_or_eq_true (P x) with h | h <;>
      simp [List.countP_cons, h, sum_map_ite01 P L, Nat.add_comm]

theorem sum_map_zero (f : Nat → Nat) : ∀ L : List Nat, (∀ t ∈ L, f t = 0) → (L.map f).sum = 0
  | [], _ => rfl
  | x :: L, h => by
    rw [List.map_cons, List.sum_cons, h x (List.mem_cons_self x L),
      sum_map_zero f L (fun t ht => h t (List.mem_cons_of_mem x ht))]

theorem any_iff_activeCount (l : List (Nat × Nat)) (t : Nat) :
    (l.any (fun p => decide (p.1 ≤ t) && decide (t < p.2)) = true) ↔ 0 < activeCount l t := by
  simp [activeCount, List.countP_pos_iff]

theorem unionMeasure_congr_perm (l l2 : List (Nat × Nat)) (T : Nat) (hperm : l.Perm l2) :
    unionMeasure l T = unionMeasure l2 T := by
  unfold unionMeasure
  apply List.countP_congr
  intro t _
  rw [List.any_eq_true, List.any_eq_true]
  constructor
  · rintro ⟨x, hx, hp⟩
    exact ⟨x, hperm.mem_iff.mp hx, hp⟩
  · rintro ⟨x, hx, hp⟩
    exact ⟨x, hperm.mem_iff.mpr hx, hp⟩

theorem concurrency_eq_spec (l : List (Nat × Nat)) (T : Nat)
    (hwf : ∀ p ∈ l, p.1 ≤ p.2) (hb : ∀ p ∈ l, p.2 ≤ T) (hT : T < W)
    (hsum : (l.map (fun p => p.2 - p.1)).sum < W) :
    concurrency l = ((l.map (fun p => p.2 - p.1)).sum, unionMeasure l T) := by
  rcases l with _ | ⟨p0, l0⟩
  · simp [concurrency, unionMeasure]
  set LL : List (Nat × Nat) := p0 :: l0 with hLL
  set ES : List (Nat × Bool) := List.insertionSort stampLE (concEvents LL) with hES
  have hsorted : List.Pairwise stampLE ES := List.sorted_insertionSort stampLE (concEvents LL)
  have hpermE : ES.Perm (concEvents LL) := List.perm_insertionSort stampLE (concEvents LL)
  have hstampW : ∀ e ∈ ES, e.1 ≤ T := by
    intro e he
    rcases mem_concEvents_stamp LL e (hpermE.mem_iff.mp he) with ⟨p, hp, hcase⟩
    have h1 := hwf p hp
    have h2 := hb p hp
    rcases hcase with h | h <;> omega
  have hfst : sum_lens LL = (LL.map (fun p => p.2 - p.1)).sum := by
    rw [sum_lens_eq LL (fun p hp => ⟨hwf p hp, by have := hb p hp; omega⟩)]
    exact Nat.mod_eq_of_lt hsum
  have hbridge : concSweep ES 0 0 0 = gsweep cUpd cRate ES 0 0 0 % W := by
    have h := concSweep_eq_gsweep ES 0 0 0 hsorted
      (fun e he => ⟨Nat.zero_le _, by have := hstampW e he; omega⟩)
    simpa using h
  have hgs := gsweep_eq cUpd cRate ES 0 0 0 hsorted (fun e _ => Nat.zero_le _)
  have hpt : ((List.range' 0 (lastStamp ES 0 - 0)).map
      (fun t => cRate (grun cUpd 0 (ES.takeWhile (fun e => decide (e.1 ≤ t)))))).sum
      = (List.range' 0 (lastStamp ES 0)).countP (fun t => decide (0 < activeCount LL t)) := by
    have hc : ∀ t ∈ List.range' 0 (lastStamp ES 0 - 0),
        cRate (grun cUpd 0 (ES.takeWhile (fun e => decide (e.1 ≤ t))))
          = (fun t => if decide (0 < activeCount LL t) then 1 else 0) t := by
      intro t _
      rw [grun_cUpd_eq_run, conc_run_eq ES LL t hsorted (conc_bal LL hwf) hpermE hwf]
      rcases Nat.eq_zero_or_pos (activeCount LL t) with h | h
      · simp [cRate, h]
      · have hne : activeCount LL t ≠ 0 := by omega
        simp [cRate, hne, h]
    rw [List.map_congr_left hc, sum_map_ite01, Nat.sub_zero]
  have hM_T : lastStamp ES 0 ≤ T := by
    rcases lastStamp_cases ES 0 with h | ⟨x, hx, h⟩
    · omega
    · rw [h]
      exact hstampW x hx
  have hzero : ∀ t, lastStamp ES 0 ≤ t → activeCount LL t = 0 := by
    intro t ht
    unfold activeCount
    rw [List.countP_eq_zero]
    intro p hp
    have hmem : ((p.2, false) : Nat × Bool) ∈ ES :=
      hpermE.mem_iff.mpr (concEvents_stop_mem LL p hp)
    have h2 : p.2 ≤ lastStamp ES 0 := stamp_le_lastStamp ES 0 hsorted (p.2, false) hmem
    simp only [Bool.and_eq_true, decide_eq_true_eq, not_and]
    intro _
    omega
  have hkey : unionMeasure LL T
      = (List.range' 0 (lastStamp ES 0)).countP (fun t => decide (0 < activeCount LL t)) := by
    unfold unionMeasure
    have hcong : (List.range T).countP
        (fun t => LL.any (fun p => decide (p.1 ≤ t) && decide (t < p.2)))
        = (List.range T).countP (fun t => decide (0 < activeCount LL t)) := by
      apply List.countP_congr
      intro t _
      rw [any_iff_activeCount, decide_eq_true_eq]
    rw [hcong, List.range_eq_range']
    have h3 := List.range'_append_1 0 (lastStamp ES 0) (T - lastStamp ES 0)
    rw [Nat.zero_add] at h3
    have h4 : (T - lastStamp ES 0) + lastStamp ES 0 = T := by omega
    rw [h4] at h3
    rw [← h3, List.countP_append]
    have h5 : (List.range' (lastStamp ES 0) (T - lastStamp ES 0)).countP
        (fun t => decide (0 < activeCount LL t)) = 0 := by
      rw [List.countP_eq_zero]
      intro t ht
      rcases List.mem_range'_1.mp ht with ⟨ht1, _⟩
      simp [hzero t ht1]
    omega
  have hsndval : concSweep ES 0 0 0 = unionMeasure LL T := by
    rw [hbridge, hgs, Nat.zero_add, hpt, ← hkey]
    apply Nat.mod_eq_of_lt
    calc unionMeasure LL T ≤ T := by
          unfold unionMeasure
          calc (List.range T).countP _ ≤ (List.range T).length := List.countP_le_length _
            _ = T := List.length_range T
      _ < W := hT
  show (sum_lens LL, concSweep ES 0 0 0) = _
  rw [hfst, hsndval]

/-- C1: for every list of (start, end) interval pairs (well-formed and
64-bit-representable: starts at most ends, ends at most the horizon
`T < 2^64`, total length below `2^64`), `concurrency` returns the pair
(sum of the interval lengths, wall-clock length of the union of the
intervals); the result is the same for every permutation of the input list;
the empty list returns `(0, 0)`; and `concurrency [(1,11),(2,4)] = (12, 10)`
in either input order. -/
theorem concurrency_sum_union (l l2 : List (Nat × Nat)) (T : Nat)
    (hperm : l.Perm l2)
    (hwf : ∀ p ∈ l, p.1 ≤ p.2) (hb : ∀ p ∈ l, p.2 ≤ T) (hT : T < W)
    (hsum : (l.map (fun p => p.2 - p.1)).sum < W) :
    concurrency l = ((l.map (fun p => p.2 - p.1)).sum, unionMeasure l T)
    ∧ concurrency l2 = concurrency l
    ∧ concurrency [] = (0, 0)
    ∧ concurrency [(1, 11), (2, 4)] = (12, 10)
    ∧ concurrency [(2, 4), (1, 11)] = (12, 10) := by
  have h1 := concurrency_eq_spec l T hwf hb hT hsum
  have hwf2 : ∀ p ∈ l2, p.1 ≤ p.2 := fun p hp => hwf p (hperm.mem_iff.mpr hp)
  have hb2 : ∀ p ∈ l2, p.2 ≤ T := fun p hp => hb p (hperm.mem_iff.mpr hp)
  have hS : (l2.map (fun p => p.2 - p.1)).sum = (l.map (fun p => p.2 - p.1)).sum :=
    ((hperm.map (fun p => p.2 - p.1)).sum_eq).symm
  have hsum2 : (l2.map (fun p => p.2 - p.1)).sum < W := by
    rw [hS]
    exact hsum
  have h2 := concurrency_eq_spec l2 T hwf2 hb2 hT hsum2
  refine ⟨h1, ?_, rfl, by decide, by decide⟩
  have hU : unionMeasure l2 T = unionMeasure l T := unionMeasure_congr_perm l2 l T hperm.symm
  rw [h1, h2, hS, hU]

/-- Witness for C1: the theorem applied at the claim's concrete input. -/
theorem concurrency_sum_union_witness :
    concurrency [(2, 4), (1, 11)] = concurrency [(1, 11), (2, 4)] :=
  (concurrency_sum_union [(1, 11), (2, 4)] [(2, 4), (1, 11)] 11 (by decide) (by decide)
    (by decide) (by decide) (by decide)).2.1

theorem nested_concurrency_eq_spec (o i : List (Nat × Nat)) (T : Nat)
    (hwfo : ∀ p ∈ o, p.1 ≤ p.2) (hwfi : ∀ p ∈ i, p.1 ≤ p.2)
    (hbo : ∀ p ∈ o, p.2 ≤ T) (hbi : ∀ p ∈ i, p.2 ≤ T)
    (hT : T < W) (hwsum : weightedOverlap o i T < W)
    (hisum : (i.map (fun p => p.2 - p.1)).sum < W) :
    nested_concurrency o i = (weightedOverlap o i T, (i.map (fun p => p.2 - p.1)).sum) := by
  rcases i with _ | ⟨q0, i0⟩
  · have hz : weightedOverlap o [] T = 0 :=
      sum_map_zero _ (List.range T) (fun t _ => by simp [activeCount])
    simp [nested_concurrency, hz]
  set II : List (Nat × Nat) := q0 :: i0 with hII
  rcases hE : List.insertionSort stampLE (outerEvents o ++ innerEvents II) with _ | ⟨e0, es0⟩
  · exfalso
    have hlen := congrArg List.length hE
    rw [List.length_insertionSort, List.length_append] at hlen
    simp [innerEvents] at hlen
  have hsorted : List.Pairwise stampLE (e0 :: es0) := by
    rw [← hE]
    exact List.sorted_insertionSort stampLE (outerEvents o ++ innerEvents II)
  have hperm2 : (e0 :: es0).Perm (outerEvents o ++ innerEvents II) := by
    rw [← hE]
    exact List.perm_insertionSort stampLE (outerEvents o ++ innerEvents II)
  have hstampT : ∀ x ∈ (e0 :: es0), x.1 ≤ T := by
    intro x hx
    rcases List.mem_append.mp (hperm2.mem_iff.mp hx) with h | h
    · rcases mem_outerEvents_stamp o x h with ⟨p, hp, hc⟩
      have h1 := hwfo p hp
      have h2 := hbo p hp
      rcases hc with h | h <;> omega
    · rcases mem_innerEvents_stamp II x h with ⟨p, hp, hc⟩
      have h1 := hwfi p hp
      have h2 := hbi p hp
      rcases hc with h | h <;> omega
  rcases List.pairwise_cons.mp hsorted with ⟨hall0, _⟩
  have hmin : ∀ x ∈ (e0 :: es0), e0.1 ≤ x.1 := by
    intro x hx
    rcases List.mem_cons.mp hx with rfl | hx2
    · exact Nat.le_refl _
    · exact hall0 x hx2
  have hval : nested_concurrency o II
      = (nestSweep (e0 :: es0) 0 0 e0.1 0, sum_lens II) := by
    show (match List.insertionSort stampLE (outerEvents o ++ innerEvents II) with
      | [] => ((0 : Nat), sum_lens II)
      | e :: es => (nestSweep (e :: es) 0 0 e.1 0, sum_lens II)) = _
    rw [hE]
  have hsnd : sum_lens II = (II.map (fun p => p.2 - p.1)).sum := by
    rw [sum_lens_eq II (fun p hp => ⟨hwfi p hp, by have := hbi p hp; omega⟩)]
    exact Nat.mod_eq_of_lt hisum
  have hbridge : nestSweep (e0 :: es0) 0 0 e0.1 0
      = gsweep nUpd nRate (e0 :: es0) (0, 0) e0.1 0 % W := by
    have h := nestSweep_eq_gsweep (e0 :: es0) 0 0 e0.1 0 hsorted
      (fun x hx => ⟨hmin x hx, by have := hstampT x hx; omega⟩)
    simpa using h
  have hgs := gsweep_eq nUpd nRate (e0 :: es0) (0, 0) e0.1 0 hsorted hmin
  have hbal := nest_bal o II hwfo hwfi
  rw [hE] at hbal
  have hpt : ∀ t ∈ List.range' e0.1 (lastStamp (e0 :: es0) e0.1 - e0.1),
      nRate (grun nUpd (0, 0) ((e0 :: es0).takeWhile (fun e => decide (e.1 ≤ t))))
        = (fun t => activeCount o t * activeCount II t) t := by
    intro t _
    rw [nest_run_eq (e0 :: es0) o II t hsorted hbal.1 hbal.2 hperm2 hwfo hwfi]
    rfl
  have hML : e0.1 ≤ lastStamp (e0 :: es0) e0.1 := by
    rw [lastStamp_cons]
    exact lastStamp_ge es0 e0.1 (List.pairwise_cons.mp hsorted).2 hall0
  have hMT : lastStamp (e0 :: es0) e0.1 ≤ T := by
    rcases lastStamp_cases (e0 :: es0) e0.1 with h | ⟨x, hx, h⟩
    · rw [h]
      exact hstampT e0 (List.mem_cons_self _ _)
    · rw [h]
      exact hstampT x hx
  have he0T : e0.1 ≤ T := hstampT e0 (List.mem_cons_self _ _)
  have hzlow : ∀ t, t < e0.1 → activeCount II t = 0 := by
    intro t ht
    unfold activeCount
    rw [List.countP_eq_zero]
    intro p hp
    have hmem : ((p.1, NTyp.starti) : Nat × NTyp) ∈ (e0 :: es0) :=
      hperm2.mem_iff.mpr (List.mem_append.mpr (Or.inr (innerEvents_start_mem II p hp)))
    have h2 : e0.1 ≤ p.1 := hmin _ hmem
    simp only [Bool.and_eq_true, decide_eq_true_eq, not_and]
    intro h3
    omega
  have hzhigh : ∀ t, lastStamp (e0 :: es0) e0.1 ≤ t → activeCount II t = 0 := by
    intro t ht
    unfold activeCount
    rw [List.countP_eq_zero]
    intro p hp
    have hmem : ((p.2, NTyp.stopi) : Nat × NTyp) ∈ (e0 :: es0) :=
      hperm2.mem_iff.mpr (List.mem_append.mpr (Or.inr (innerEvents_stop_mem II p hp)))
    have h2 : p.2 ≤ lastStamp (e0 :: es0) e0.1 := stamp_le_lastStamp _ _ hsorted _ hmem
    simp only [Bool.and_eq_true, decide_eq_true_eq, not_and]
    intro _
    omega
  have hkey : weightedOverlap o II T
      = ((List.range' e0.1 (lastStamp (e0 :: es0) e0.1 - e0.1)).map
          (fun t => activeCount o t * activeCount II t)).sum := by
    unfold weightedOverlap
    rw [List.range_eq_range']
    have h3 := List.range'_append_1 0 e0.1 (T - e0.1)
    rw [Nat.zero_add] at h3
    have h4 : (T - e0.1) + e0.1 = T := by omega
    rw [h4] at h3
    have h5 := List.range'_append_1 e0.1 (lastStamp (e0 :: es0) e0.1 - e0.1)
      (T - lastStamp (e0 :: es0) e0.1)
    have h6 : e0.1 + (lastStamp (e0 :: es0) e0.1 - e0.1) = lastStamp (e0 :: es0) e0.1 := by
      omega
    have h7 : (T - lastStamp (e0 :: es0) e0.1) + (lastStamp (e0 :: es0) e0.1 - e0.1)
        = T - e0.1 := by omega
    rw [h6, h7] at h5
    rw [← h3, ← h5, List.map_append, List.map_append, List.sum_append, List.sum_append]
    have hz1 : ((List.range' 0 e0.1).map
        (fun t => activeCount o t * activeCount II t)).sum = 0 := by
      apply sum_map_zero
      intro t ht
      rcases List.mem_range'_1.mp ht with ⟨_, ht2⟩
      rw [hzlow t (by omega), Nat.mul_zero]
    have hz2 : ((List.range' (lastStamp (e0 :: es0) e0.1)
        (T - lastStamp (e0 :: es0) e0.1)).map
        (fun t => activeCount o t * activeCount II t)).sum = 0 := by
      apply sum_map_zero
      intro t ht
      rcases List.mem_range'_1.mp ht with ⟨ht1, _⟩
      rw [hzhigh t ht1, Nat.mul_zero]
    rw [hz1, hz2]
    omega
  have hfst : nestSweep (e0 :: es0) 0 0 e0.1 0 = weightedOverlap o II T := by
    rw [hbridge, hgs, Nat.zero_add, List.map_congr_left hpt, ← hkey]
    exact Nat.mod_eq_of_lt hwsum
  rw [hval, hfst, hsnd]

/-- C4: for every pair of well-formed 64-bit-representable interval lists
(outer, inner), `nested_concurrency` returns the pair (sum over time of
outer-active-count × inner-active-count — the sum over consecutive
sorted-event gaps of `ocount * icount * elapsed` — and the sum of the inner
interval lengths); every input with an empty inner list returns `(0, 0)`
immediately; `nested_concurrency [(0,1)] [(0,1)] = (1, 1)` and
`nested_concurrency [(5,10)] [(0,1),(1,2)] = (0, 2)`. -/
theorem nested_concurrency_weighted (o i : List (Nat × Nat)) (T : Nat)
    (hwfo : ∀ p ∈ o, p.1 ≤ p.2) (hwfi : ∀ p ∈ i, p.1 ≤ p.2)
    (hbo : ∀ p ∈ o, p.2 ≤ T) (hbi : ∀ p ∈ i, p.2 ≤ T)
    (hT : T < W) (hwsum : weightedOverlap o i T < W)
    (hisum : (i.map (fun p => p.2 - p.1)).sum < W) :
    nested_concurrency o i = (weightedOverlap o i T, (i.map (fun p => p.2 - p.1)).sum)
    ∧ (∀ o2 : List (Nat × Nat), nested_concurrency o2 [] = (0, 0))
    ∧ nested_concurrency [(0, 1)] [(0, 1)] = (1, 1)
    ∧ nested_concurrency [(5, 10)] [(0, 1), (1, 2)] = (0, 2) :=
  ⟨nested_concurrency_eq_spec o i T hwfo hwfi hbo hbi hT hwsum hisum,
    fun _ => rfl, by decide, by decide⟩

/-- Witness for C4: the theorem applied at the claim's concrete input. -/
theorem nested_concurrency_weighted_witness :
    nested_concurrency [(0, 1)] [(0, 1)] = (1, 1) :=
  (nested_concurrency_weighted [(0, 1)] [(0, 1)] 1 (by decide) (by decide) (by decide)
    (by decide) (by decide) (by decide) (by decide)).2.2.1

/-- C2: for every list of `N ≥ 2` intervals, `conc_ratio` equals the linear
remap of `raw = sum_durations / sum_union_weighted` from `[1, N]` to `[0, 1]`
(in closed form `(raw - 1) / (N - 1)` when the union weight is nonzero);
the remap sends raw = 1 to 0 and raw = N to 1; every single-interval input
returns 1.0 by special case; and `conc_ratio [(0,10),(0,3),(0,7)] = 0.5`. -/
theorem conc_ratio_remap (l : List (Nat × Nat)) (hN : 2 ≤ l.length) :
    conc_ratio l
      = remap (D.div (D.fin ((concurrency l).1 : ℚ)) (D.fin ((concurrency l).2 : ℚ)))
          (D.fin 1) (D.fin (l.length : ℚ)) (D.fin 0) (D.fin 1)
    ∧ ((concurrency l).2 ≠ 0 →
        conc_ratio l
          = D.fin ((((concurrency l).1 : ℚ) / ((concurrency l).2 : ℚ) - 1)
              / ((l.length : ℚ) - 1)))
    ∧ remap (D.fin 1) (D.fin 1) (D.fin (l.length : ℚ)) (D.fin 0) (D.fin 1) = D.fin 0
    ∧ remap (D.fin (l.length : ℚ)) (D.fin 1) (D.fin (l.length : ℚ)) (D.fin 0) (D.fin 1)
        = D.fin 1
    ∧ (∀ l2 : List (Nat × Nat), l2.length = 1 → conc_ratio l2 = D.fin 1)
    ∧ conc_ratio [(0, 10), (0, 3), (0, 7)] = D.fin (1 / 2) := by
  have hne1 : l.length ≠ 1 := by omega
  have hNQ : ((l.length : ℚ) - 1) ≠ 0 := by
    have h2 : (2 : ℚ) ≤ (l.length : ℚ) := by
      exact_mod_cast hN
    intro h
    rw [sub_eq_zero] at h
    rw [h] at h2
    norm_num at h2
  have hmain : conc_ratio l
      = remap (D.div (D.fin ((concurrency l).1 : ℚ)) (D.fin ((concurrency l).2 : ℚ)))
          (D.fin 1) (D.fin (l.length : ℚ)) (D.fin 0) (D.fin 1) := by
    unfold conc_ratio
    rw [if_neg hne1]
  refine ⟨hmain, ?_, ?_, ?_, ?_, ?_⟩
  · intro hc2
    have hc2Q : ((concurrency l).2 : ℚ) ≠ 0 := by
      exact_mod_cast hc2
    rw [hmain]
    simp only [remap, D.sub, D.div, D.add, D.mul, if_neg hc2Q, if_neg hNQ]
    norm_num
    exact (div_eq_inv_mul _ _).symm
  · simp only [remap, D.sub, D.div, D.add, D.mul, if_neg hNQ]
    norm_num
  · simp only [remap, D.sub, D.div, D.add, D.mul, if_neg hNQ]
    norm_num
    exact inv_mul_cancel₀ hNQ
  · intro l2 h1
    unfold conc_ratio
    rw [if_pos h1]
  · have hconc : concurrency [(0, 10), (0, 3), (0, 7)] = (20, 10) := by decide
    simp only [conc_ratio, hconc]
    norm_num [remap, D.div, D.sub, D.add, D.mul]

/-- Witness for C2: the theorem applied at the claim's concrete input. -/
theorem conc_ratio_remap_witness :
    conc_ratio [(0, 10), (0, 3), (0, 7)] = D.fin (1 / 2) :=
  (conc_ratio_remap [(0, 10), (0, 3), (0, 7)] (by decide)).2.2.2.2.2

/-- C3: for a `hot_barrier` constructed with participant count `N ≥ 1` (and
fewer than `2^64` total increments), `is_broken` returns true exactly when the
arrival counter equals `N`: after `k < N` increments it is false, after
exactly `N` increments it is true, and a state reached by `k` increments
satisfies `is_broken` only when `k = N` — so no `wait()` poll can observe a
broken barrier, and hence no `wait()` call can return, before the `N`-th
increment has occurred. -/
theorem hot_barrier_break_iff (N k : Nat) (hN : 1 ≤ N) (hNW : N < W) (hk : k ≤ N) :
    (∀ b : hot_barrier, b.is_broken = true ↔ b.current = b.break_count)
    ∧ (afterIncrements N k).break_count = N
    ∧ (k < N → (afterIncrements N k).is_broken = false)
    ∧ (afterIncrements N N).is_broken = true
    ∧ (∀ j : Nat, j < W → (afterIncrements N j).is_broken = true → j = N) := by
  have hcur : ∀ j : Nat, (afterIncrements N j).current = j % W
      ∧ (afterIncrements N j).break_count = N := by
    intro j
    induction j with
    | zero => exact ⟨rfl, rfl⟩
    | succ j ih =>
      constructor
      · show ((afterIncrements N j).current + 1) % W = (j + 1) % W
        rw [ih.1, Nat.mod_add_mod]
      · exact ih.2
  refine ⟨fun b => by simp [hot_barrier.is_broken], (hcur k).2, ?_, ?_, ?_⟩
  · intro hkN
    have h1 : (afterIncrements N k).current = k := by
      rw [(hcur k).1]
      exact Nat.mod_eq_of_lt (by omega)
    simp [hot_barrier.is_broken, h1, (hcur k).2]
    omega
  · have h1 : (afterIncrements N N).current = N := by
      rw [(hcur N).1]
      exact Nat.mod_eq_of_lt hNW
    simp [hot_barrier.is_broken, h1, (hcur N).2]
  · intro j hj hbr
    have h1 : (afterIncrements N j).current = j := by
      rw [(hcur j).1]
      exact Nat.mod_eq_of_lt hj
    simp [hot_barrier.is_broken, h1, (hcur j).2] at hbr
    exact hbr

/-- Witness for C3: a two-participant barrier after one and after two
increments. -/
theorem hot_barrier_break_iff_witness :
    (afterIncrements 2 1).is_broken = false ∧ (afterIncrements 2 2).is_broken = true :=
  ⟨(hot_barrier_break_iff 2 1 (by decide) (by decide) (by decide)).2.2.1 (by decide),
    (hot_barrier_break_iff 2 2 (by decide) (by decide) (by decide)).2.2.2.1⟩

/-- C9: `is_broken` tests exact equality of the arrival counter with
`break_count`, not greater-or-equal: after `k` increments with `N < k < 2^64`,
`is_broken` returns false again — the broken state is not absorbing. -/
theorem hot_barrier_not_absorbing (N k : Nat) (hk : N < k) (hkW : k < W) :
    (afterIncrements N k).is_broken = false
    ∧ (∀ b : hot_barrier, b.is_broken = true ↔ b.current = b.break_count) := by
  have hcur : ∀ j : Nat, (afterIncrements N j).current = j % W
      ∧ (afterIncrements N j).break_count = N := by
    intro j
    induction j with
    | zero => exact ⟨rfl, rfl⟩
    | succ j ih =>
      constructor
      · show ((afterIncrements N j).current + 1) % W = (j + 1) % W
        rw [ih.1, Nat.mod_add_mod]
      · exact ih.2
  refine ⟨?_, fun b => by simp [hot_barrier.is_broken]⟩
  have h1 : (afterIncrements N k).current = k := by
    rw [(hcur k).1]
    exact Nat.mod_eq_of_lt hkW
  simp [hot_barrier.is_broken, h1, (hcur k).2]
  omega

/-- Witness for C9: a one-participant barrier incremented twice is no longer
broken. -/
theorem hot_barrier_not_absorbing_witness :
    (afterIncrements 1 2).is_broken = false :=
  (hot_barrier_not_absorbing 1 2 (by decide) (by decide)).1

theorem trialSample_affine (c k iters t0 : Nat)
    (hcost : c + k * (iters * 2) < W) (ht0 : t0 < W) :
    trialSample (fun i => c + k * i) iters t0 = k * iters := by
  have hmul : k * iters ≤ k * (iters * 2) := Nat.mul_le_mul_left k (by omega)
  have hx1 : c + k * iters < W := by omega
  have hx2 : c + k * (iters * 2) < W := hcost
  show wsub
      (wsub (((t0 + (c + k * iters)) % W + (c + k * (iters * 2))) % W)
        ((t0 + (c + k * iters)) % W))
      (wsub ((t0 + (c + k * iters)) % W) t0) = k * iters
  rw [wsub_add_mod t0 (c + k * iters) ht0 hx1]
  rw [wsub_add_mod ((t0 + (c + k * iters)) % W) (c + k * (iters * 2))
    (Nat.mod_lt _ W_pos) hx2]
  rw [wsub_exact (by omega) (by omega)]
  have hkk : k * (iters * 2) = k * iters + k * iters := by ring
  omega

/-- C5: every trial sample recorded by `run_test` is
`(t2 - t1) - (t1 - t0)`, the time of the workload at `2N` iterations minus the
time at `N` iterations; consequently for a workload whose running time at `i`
iterations is `c + k * i` (with the total cost 64-bit-representable), every
one of the recorded samples equals `k * N`, independent of the fixed
overhead `c`. -/
theorem run_test_marginal_cost (c k iters tries t0 : Nat)
    (hcost : c + k * (iters * 2) < W) (ht0 : t0 < W) :
    run_test_samples (fun i => c + k * i) iters tries t0
      = List.replicate tries (k * iters)
    ∧ ∀ x ∈ run_test_samples (fun i => c + k * i) iters tries t0, x = k * iters := by
  have hmain : ∀ (n s : Nat), s < W →
      run_test_samples (fun i => c + k * i) iters n s = List.replicate n (k * iters) := by
    intro n
    induction n with
    | zero => intro s _; rfl
    | succ n ih =>
      intro s hs
      show trialSample (fun i => c + k * i) iters s ::
          run_test_samples (fun i => c + k * i) iters n
            (((s + (c + k * iters)) % W + (c + k * (iters * 2))) % W)
        = List.replicate (n + 1) (k * iters)
      rw [trialSample_affine c k iters s hcost hs, List.replicate_succ,
        ih _ (Nat.mod_lt _ W_pos)]
  refine ⟨hmain tries t0 ht0, ?_⟩
  intro x hx
  rw [hmain tries t0 ht0] at hx
  exact List.eq_of_mem_replicate hx

/-- Witness for C5: a workload with overhead 7 and per-iteration cost 3 at
`N = 100` yields three samples of exactly 300. -/
theorem run_test_marginal_cost_witness :
    run_test_samples (fun i => 7 + 3 * i) 100 3 5 = List.replicate 3 (3 * 100) :=
  (run_test_marginal_cost 7 3 100 3 5 (by decide) (by decide)).1

theorem sum_le_len_mul (B : Nat) : ∀ L : List Nat, (∀ x ∈ L, x ≤ B) → L.sum ≤ L.length * B
  | [], _ => by simp
  | x :: L, h => by
    rw [List.sum_cons, List.length_cons]
    have h1 := h x (List.mem_cons_self x L)
    have h2 := sum_le_len_mul B L (fun y hy => h y (List.mem_cons_of_mem x hy))
    have h3 : (L.length + 1) * B = L.length * B + B := by ring
    omega

theorem tsc_window_mem (sample : Nat → Nat) (x : Nat)
    (hx : x ∈ ((List.insertionSort (fun a b => a ≤ b)
        (((List.range (SAMPLES * 2)).map sample).drop SAMPLES)).drop
          (2 * SAMPLES / 5)).take (SAMPLES / 5)) :
    ∃ s, s < SAMPLES * 2 ∧ sample s = x := by
  have h1 := List.drop_subset (2 * SAMPLES / 5) _ (List.take_subset _ _ hx)
  have h2 : x ∈ ((List.range (SAMPLES * 2)).map sample).drop SAMPLES :=
    (List.perm_insertionSort (fun a b => a ≤ b) _).mem_iff.mp h1
  have h3 : x ∈ (List.range (SAMPLES * 2)).map sample := List.drop_subset SAMPLES _ h2
  rcases List.mem_map.mp h3 with ⟨s, hs, rfl⟩
  exact ⟨s, List.mem_range.mp hs, rfl⟩

/-- C6: `tsc_from_cal` collects `2 * SAMPLES` tick-rate samples with
`SAMPLES = 101`, discards the first `SAMPLES` as warmup, sorts the remaining
`SAMPLES` samples, and returns the integer average of the `SAMPLES / 5`
consecutive sorted samples starting at index `2 * SAMPLES / 5` — the third
quintile of the retained half.  Stated for measurements below `2^59` (so the
window sum fits in 64 bits); a constant measurement stream yields exactly that
constant, and the identity stream yields 150 (the average of sorted positions
40 to 59 of the retained half 101..201). -/
theorem tsc_from_cal_trimmed_mean (sample : Nat → Nat) (c : Nat)
    (hs : ∀ s, s < SAMPLES * 2 → sample s < 2 ^ 59) (hc : c < 2 ^ 59) :
    tsc_from_cal sample = trimmedMeanSpec sample
    ∧ SAMPLES = 101 ∧ SAMPLES / 5 = 20 ∧ 2 * SAMPLES / 5 = 40
    ∧ tsc_from_cal (fun _ => c) = c
    ∧ tsc_from_cal (fun s => s) = 150 := by
  have hrange : 2 * SAMPLES = SAMPLES * 2 := Nat.mul_comm 2 SAMPLES
  have hfold : ∀ L : List Nat, (∀ x ∈ L, x ∈ L) →
      L.foldl (fun s x => (s + x) % W) 0 = L.sum % W := by
    intro L _
    have h := foldl_mod_add (fun x : Nat => x) L 0
    rw [Nat.zero_mod] at h
    rw [h, Nat.zero_add, List.map_id']
  have hconst : tsc_from_cal (fun _ => c) = c := by
    simp only [tsc_from_cal]
    have e1 : (List.range (SAMPLES * 2)).map (fun _ => c)
        = List.replicate (SAMPLES * 2) c := by
      rw [List.map_const', List.length_range]
    have e3 : List.insertionSort (fun a b : Nat => a ≤ b) (List.replicate SAMPLES c)
        = List.replicate SAMPLES c := by
      apply List.eq_replicate_iff.mpr
      constructor
      · rw [List.length_insertionSort, List.length_replicate]
      · intro b hb
        have hmem := (List.perm_insertionSort (fun a b : Nat => a ≤ b)
          (List.replicate SAMPLES c)).mem_iff.mp hb
        exact (List.eq_of_mem_replicate hmem)
    rw [e1, List.drop_replicate]
    have e2 : SAMPLES * 2 - SAMPLES = SAMPLES := by omega
    rw [e2, e3, List.drop_replicate, List.take_replicate]
    have e4 : min (SAMPLES / 5) (SAMPLES - 2 * SAMPLES / 5) = SAMPLES / 5 := by decide
    rw [e4, hfold _ (fun x hx => hx), List.sum_const_nat]
    have e5 : SAMPLES / 5 * c < W := by
      have h59 : (2 : Nat) ^ 59 = 576460752303423488 := by norm_num
      have hW : W = 18446744073709551616 := by norm_num [W]
      have h5 : SAMPLES / 5 = 20 := by decide
      rw [h5, hW]
      omega
    rw [Nat.mod_eq_of_lt e5]
    exact Nat.mul_div_cancel_left c (by decide : 0 < SAMPLES / 5)
  have hmain : tsc_from_cal sample = trimmedMeanSpec sample := by
    have h1 : ∀ x ∈ (((List.insertionSort (fun a b : Nat => a ≤ b)
        (((List.range (SAMPLES * 2)).map sample).drop SAMPLES)).drop
          (SAMPLES * 2 / 5)).take (SAMPLES / 5)), x ≤ 2 ^ 59 - 1 := by
      intro x hx
      rcases tsc_window_mem sample x hx with ⟨s, hsb, rfl⟩
      have := hs s hsb
      omega
    have h2 := sum_le_len_mul (2 ^ 59 - 1) _ h1
    have h3 := List.length_take_le (SAMPLES / 5)
      ((List.insertionSort (fun a b : Nat => a ≤ b)
        (((List.range (SAMPLES * 2)).map sample).drop SAMPLES)).drop (SAMPLES * 2 / 5))
    have h4 : (SAMPLES / 5) * (2 ^ 59 - 1) < W := by
      have h59 : (2 : Nat) ^ 59 = 576460752303423488 := by norm_num
      have hW : W = 18446744073709551616 := by norm_num [W]
      have h5 : SAMPLES / 5 = 20 := by decide
      rw [h5, hW, h59]
      omega
    have h6 := Nat.mul_le_mul_right (2 ^ 59 - 1) h3
    have hlt : (((List.insertionSort (fun a b : Nat => a ≤ b)
        (((List.range (SAMPLES * 2)).map sample).drop SAMPLES)).drop
          (SAMPLES * 2 / 5)).take (SAMPLES / 5)).sum < W := by
      omega
    have hAB : (((List.insertionSort (fun a b : Nat => a ≤ b)
        (((List.range (SAMPLES * 2)).map sample).drop SAMPLES)).drop
          (SAMPLES * 2 / 5)).take (SAMPLES / 5)).foldl (fun s x => (s + x) % W) 0
        = (((List.insertionSort (fun a b : Nat => a ≤ b)
        (((List.range (SAMPLES * 2)).map sample).drop SAMPLES)).drop
          (SAMPLES * 2 / 5)).take (SAMPLES / 5)).sum := by
      rw [hfold _ (fun x hx => hx)]
      exact Nat.mod_eq_of_lt hlt
    simp only [tsc_from_cal, trimmedMeanSpec]
    rw [Nat.mul_comm 2 SAMPLES]
    exact congrArg (fun n => n / (SAMPLES / 5)) hAB
  exact ⟨hmain, rfl, rfl, rfl, hconst, by decide⟩

/-- Witness for C6: the theorem applied to the all-zero measurement stream. -/
theorem tsc_from_cal_trimmed_mean_witness :
    tsc_from_cal (fun _ => 0) = trimmedMeanSpec (fun _ => 0) :=
  (tsc_from_cal_trimmed_mean (fun _ => 0) 0 (fun s _ => Nat.pos_pow_of_pos 59 (by decide)) (by decide)).1

/-- Counterexample for C7: with leaf 0x15 supported, crystal-clock field
ECX = 0 but ratio numerator EBX = 2 ≠ 0 on a known family-6 model, the claim
places the input in its fallback case (the descriptor value
`ecx * ebx / eax` is zero and the ratio numerator is nonzero, so no claimed
case yields the hard-coded crystal), predicting the calibration-loop value;
the code instead returns the hard-coded 24 MHz crystal times `ebx / eax`. -/
theorem get_tsc_freq_claim_counterexample :
    infoCX.ebx ≠ 0
    ∧ infoCX.ecx * infoCX.ebx / infoCX.eax = 0
    ∧ get_tsc_freq false infoCX (fun _ => 0) = 48000000
    ∧ tsc_from_cal (fun _ => 0) = 0
    ∧ get_tsc_freq false infoCX (fun _ => 0) ≠ tsc_from_cal (fun _ => 0) := by
  refine ⟨by decide, by decide, by decide, by decide, ?_⟩
  have h1 : get_tsc_freq false infoCX (fun _ => 0) = 48000000 := by decide
  have h2 : tsc_from_cal (fun _ => 0) = 0 := by decide
  rw [h1, h2]
  decide

/-- C7 (amended): `get_tsc_freq` returns the CPUID-derived value
`ecx * ebx / eax` (crystal clock × ratio numerator / ratio denominator)
whenever calibration is not forced and that value is nonzero; when the
crystal-clock field ECX is zero, known family-6 models yield the hard-coded
24 MHz crystal times `ebx / eax`; in every other case (leaf 0x15 unsupported,
ECX zero with unknown family/model, derived value zero, or calibration
forced) it falls back to the sampling calibration loop. -/
theorem get_tsc_freq_cases (force : Bool) (info : CpuidInfo) (sample : Nat → Nat)
    (h15 : ¬ info.highest_leaf < 0x15) :
    (force = false → get_tsc_from_cpuid_inner info ≠ 0 →
      get_tsc_freq force info sample = get_tsc_from_cpuid_inner info)
    ∧ (force = true → get_tsc_freq force info sample = tsc_from_cal sample)
    ∧ (get_tsc_from_cpuid_inner info = 0 →
        get_tsc_freq force info sample = tsc_from_cal sample)
    ∧ (info.ecx ≠ 0 → get_tsc_from_cpuid_inner info = info.ecx * info.ebx / info.eax)
    ∧ (info.ecx = 0 → info.family = 6 →
        (info.model = 0x4E ∨ info.model = 0x5E ∨ info.model = 0x8E ∨ info.model = 0x9E) →
        get_tsc_from_cpuid_inner info = 24000000 * info.ebx / info.eax)
    ∧ (info.ecx = 0 → info.family ≠ 6 → get_tsc_from_cpuid_inner info = 0)
    ∧ (∀ info2 : CpuidInfo, info2.highest_leaf < 0x15 →
        get_tsc_from_cpuid_inner info2 = 0) := by
  refine ⟨?_, ?_, ?_, ?_, ?_, ?_, ?_⟩
  · intro h1 h2
    unfold get_tsc_freq
    rw [if_pos ⟨h1, h2⟩]
  · intro h1
    unfold get_tsc_freq
    rw [if_neg]
    simp [h1]
  · intro h1
    unfold get_tsc_freq
    rw [if_neg]
    simp [h1]
  · intro h1
    unfold get_tsc_from_cpuid_inner
    rw [if_neg h15, if_pos h1]
  · intro h1 h2 h3
    unfold get_tsc_from_cpuid_inner
    rw [if_neg h15, if_neg (by simp [h1]), if_pos h2, if_pos h3]
  · intro h1 h2
    unfold get_tsc_from_cpuid_inner
    rw [if_neg h15, if_neg (by simp [h1]), if_neg h2]
  · intro info2 h1
    unfold get_tsc_from_cpuid_inner
    rw [if_pos h1]

/-- Witness for C7's amended theorem: the hard-coded-crystal case at the
counterexample's register values. -/
theorem get_tsc_freq_cases_witness :
    get_tsc_from_cpuid_inner infoCX = 24000000 * infoCX.ebx / infoCX.eax :=
  (get_tsc_freq_cases false infoCX (fun _ => 0) (by decide)).2.2.2.2.1 rfl rfl (Or.inl rfl)

/-- C8: a configuration error — an iteration count that is not a multiple of
100, or a spec requiring more threads than available CPUs — makes `main` exit
before any thread is spawned, aborting the run entirely; on the good path
exactly `specCount` threads are spawned, so a spec is never partially
spawned. -/
theorem main_config_error_no_spawn (iters specCount ncpus : Nat)
    (hgood : iters % 100 = 0 ∧ specCount ≤ ncpus) :
    (∀ iters2 specCount2 ncpus2 : Nat, iters2 % 100 ≠ 0 →
      mainTrace iters2 specCount2 ncpus2 = [MainAct.exitFailure])
    ∧ (∀ iters2 specCount2 ncpus2 : Nat, ncpus2 < specCount2 →
      mainTrace iters2 specCount2 ncpus2 = [MainAct.exitFailure])
    ∧ mainTrace iters specCount ncpus
        = (List.range specCount).map MainAct.spawn ++ [MainAct.joinAll]
    ∧ ((mainTrace iters specCount ncpus).countP MainAct.isSpawn = specCount)
    ∧ (∀ iters2 specCount2 ncpus2 : Nat,
        (mainTrace iters2 specCount2 ncpus2).countP MainAct.isSpawn = 0
        ∨ (mainTrace iters2 specCount2 ncpus2).countP MainAct.isSpawn = specCount2) := by
  have herr1 : ∀ iters2 specCount2 ncpus2 : Nat, iters2 % 100 ≠ 0 →
      mainTrace iters2 specCount2 ncpus2 = [MainAct.exitFailure] := by
    intro a b c h
    unfold mainTrace
    rw [if_pos h]
  have herr2 : ∀ iters2 specCount2 ncpus2 : Nat, ncpus2 < specCount2 →
      mainTrace iters2 specCount2 ncpus2 = [MainAct.exitFailure] := by
    intro a b c h
    unfold mainTrace
    by_cases h1 : a % 100 ≠ 0
    · rw [if_pos h1]
    · rw [if_neg h1, if_pos h]
  have hspawncount : ∀ n : Nat, ((List.range n).map MainAct.spawn
      ++ [MainAct.joinAll]).countP MainAct.isSpawn = n := by
    intro n
    rw [List.countP_append, List.countP_map]
    have h1 : (List.range n).countP (MainAct.isSpawn ∘ MainAct.spawn) = n := by
      have h2 : ∀ x ∈ List.range n, (MainAct.isSpawn ∘ MainAct.spawn) x = true :=
        fun x _ => rfl
      calc (List.range n).countP (MainAct.isSpawn ∘ MainAct.spawn)
          = (List.range n).countP (fun _ => true) :=
            List.countP_congr (fun x hx => by simp [MainAct.isSpawn, Function.comp])
        _ = n := by simp
    rw [h1]
    simp [MainAct.isSpawn]
  have hgoodtrace : mainTrace iters specCount ncpus
      = (List.range specCount).map MainAct.spawn ++ [MainAct.joinAll] := by
    unfold mainTrace
    rw [if_neg (by simp [hgood.1]), if_neg (by omega)]
  refine ⟨herr1, herr2, hgoodtrace, ?_, ?_⟩
  · rw [hgoodtrace]
    exact hspawncount specCount
  · intro a b c
    by_cases h1 : a % 100 ≠ 0
    · left
      rw [herr1 a b c h1]
      rfl
    · by_cases h2 : c < b
      · left
        rw [herr2 a b c h2]
        rfl
      · right
        have h3 : mainTrace a b c = (List.range b).map MainAct.spawn ++ [MainAct.joinAll] := by
          unfold mainTrace
          rw [if_neg h1, if_neg h2]
        rw [h3]
        exact hspawncount b

/-- Witness for C8: a run with 150 iterations exits before spawning; a run
with 100 iterations and 2 threads on 4 CPUs spawns exactly 2 threads. -/
theorem main_config_error_no_spawn_witness :
    mainTrace 150 2 4 = [MainAct.exitFailure]
    ∧ mainTrace 100 2 4 = (List.range 2).map MainAct.spawn ++ [MainAct.joinAll] :=
  ⟨(main_config_error_no_spawn 100 2 4 ⟨rfl, by decide⟩).1 150 2 4 (by decide),
    (main_config_error_no_spawn 100 2 4 ⟨rfl, by decide⟩).2.2.1⟩

theorem D.mul_nan (x : D) : D.mul x D.nan = D.nan := by cases x <;> rfl

theorem D.add_nan (x : D) : D.add x D.nan = D.nan := by cases x <;> rfl

/-- C10: for every non-empty outer interval list paired with an empty inner
list, `nconc_ratio` does not return 0.0: `nested_concurrency` returns
`(0, 0)`, the raw ratio is `0.0 / 0.0` = NaN, and NaN propagates through the
remap — only an empty outer list produces the 0.0 result. -/
theorem nconc_ratio_empty_inner (o : List (Nat × Nat)) (ho : o ≠ []) :
    nconc_ratio o [] = D.nan
    ∧ nested_concurrency o [] = (0, 0)
    ∧ nconc_ratio [] [] = D.fin 0
    ∧ D.nan ≠ D.fin 0 := by
  refine ⟨?_, rfl, rfl, by decide⟩
  have hlen : o.length ≠ 0 := by
    intro h
    exact ho (List.eq_nil_of_length_eq_zero h)
  have hconc : nested_concurrency o [] = (0, 0) := rfl
  simp only [nconc_ratio, hconc]
  rw [if_neg hlen]
  have hraw : D.div (D.fin (((0 : Nat) : ℚ))) (D.fin (((0 : Nat) : ℚ))) = D.nan := by
    simp [D.div]
  by_cases h1 : o.length = 1
  · rw [if_pos h1]
    exact hraw
  · rw [if_neg h1, hraw]
    simp only [remap]
    rw [show D.sub D.nan (D.fin 1) = D.nan from rfl, D.mul_nan, D.add_nan]

/-- Witness for C10: a single outer interval with empty inner yields NaN. -/
theorem nconc_ratio_empty_inner_witness :
    nconc_ratio [(0, 1)] [] = D.nan :=
  (nconc_ratio_empty_inner [(0, 1)] (by decide)).1
